import Mathlib

/-
Shallow embedding of the LRU cache of `synapse/util/caches/lrucache.py`.

Modelling conventions:

* A `_Node` of the Python recency list is an `Entry`; the circular doubly
  linked list rooted at `list_root` is modelled as the list `entries`, whose
  head is `list_root.next_node` (the most recently touched node) and whose
  last element is `list_root.prev_node` (the eviction candidate).
* The backing dict `cache` always holds exactly the nodes that are linked
  into the recency list (every code path that unlinks a node also pops it
  from the dict before the operation returns), so in the pure model the one
  list `entries` stands for both.  The exception-sensitive ordering of the
  two removals matters only when a callback raises, which is modelled
  separately over `ExcState` (the dict membership `indexKeys` kept distinct
  from the recency list) by `cache_pop_exc`, `cache_set_exc`, `evictExc`,
  `cache_del_multi_exc` and `cache_clear_exc` below.
* Invalidation callbacks are identified by numeric ids (`Nat`), as Python
  deduplicates them by identity (`callback not in self.callbacks`).
  Running a callback is modelled by appending its id to the `fired` log.
  Python's `set(callbacks)` in `cache_set` iterates in unspecified order;
  it is modelled as first-occurrence order.
* The prometheus metrics object is modelled as always registered: `hits`,
  `misses` and `evictions` are counters in the state
  (`metrics.inc_evictions(evicted_len)` adds the evicted cost).
* `size_callback` returns a Python int, modelled as `Int`; the module-level
  cached length cell `cached_cache_len[0]` is the field `cachedLen`.
* `max_size` is `int(max_size * factor)`: Python floats are modelled as
  rationals and Python's `int(...)` truncation toward zero as `pyInt`.
-/

namespace LruSpec

/-- A `_Node` of the recency list: key, value and the deduplicated list of
invalidation callback ids (`self.callbacks`, with `None` modelled as `[]`). -/
structure Entry (K V : Type) where
  key : K
  value : V
  callbacks : List Nat
deriving Repr, DecidableEq

/-- Construction-time configuration that the closures capture: the optional
`size_callback` used for cost accounting. -/
structure Config (V : Type) where
  sizeCallback : Option (V → Int)

/-- The mutable state captured by the `LruCache` closures. -/
structure CacheState (K V : Type) where
  /-- The recency list, head = most recently touched (`list_root.next_node`). -/
  entries : List (Entry K V)
  /-- `self.max_size`, the effective capacity used by the eviction loop. -/
  maxSize : Int
  /-- `self._original_max_size`. -/
  origMaxSize : Int
  /-- `self.apply_cache_factor_from_config`. -/
  applyFactor : Bool
  /-- Metrics counter incremented by `metrics.inc_hits()`. -/
  hits : Nat
  /-- Metrics counter incremented by `metrics.inc_misses()`. -/
  misses : Nat
  /-- Metrics counter incremented by `metrics.inc_evictions(evicted_len)`. -/
  evictions : Int
  /-- The cell `cached_cache_len[0]` (only maintained when `size_callback` is set). -/
  cachedLen : Int
  /-- Log of callbacks that have been run, in execution order. -/
  fired : List Nat
deriving Repr

/-- Python's `int(...)` applied to a real number: truncation toward zero. -/
def pyInt (q : Rat) : Int :=
  if 0 ≤ q then ⌊q⌋ else ⌈q⌉

/-- The `LruCache.__init__` state: `max_size` is multiplied by the configured
default factor (and truncated by `int(...)`) exactly when
`apply_cache_factor_from_config` is true. -/
def initCache (K V : Type) (max_size : Int) (applyFactor : Bool) (defaultFactor : Rat) :
    CacheState K V :=
  { entries := []
    maxSize := if applyFactor then pyInt (max_size * defaultFactor) else max_size
    origMaxSize := max_size
    applyFactor := applyFactor
    hits := 0
    misses := 0
    evictions := 0
    cachedLen := 0
    fired := [] }

/-- Cost of one value: `size_callback(value)` when a size callback is
configured, and the implicit unit cost (`deleted_len = 1`) otherwise. -/
def entrySize (cfg : Config V) (v : V) : Int :=
  match cfg.sizeCallback with
  | some f => f v
  | none => 1

/-- The dict lookup `cache.get(key, None)`: the node stored under `key`. -/
def findEntry [DecidableEq K] (entries : List (Entry K V)) (k : K) : Option (Entry K V) :=
  entries.find? fun e => decide (e.key = k)

/-- Unlinking the node stored under `k` from the recency list: removes the
first (in reachable states, the only) entry with that key. -/
def removeKey [DecidableEq K] : List (Entry K V) → K → List (Entry K V)
  | [], _ => []
  | e :: es, k => if e.key = k then es else e :: removeKey es k

/-- The method `_Node.add_callbacks`: append each new callback that is not
already registered, preserving order. -/
def addCallbacks (existing : List Nat) (callbacks : List Nat) : List Nat :=
  callbacks.foldl (fun acc cb => if cb ∈ acc then acc else acc ++ [cb]) existing

/-- The closure `cache_len()`: the cached aggregate cost when a size callback
is configured, otherwise `len(cache)`. -/
def cacheLen (cfg : Config V) (s : CacheState K V) : Int :=
  match cfg.sizeCallback with
  | some _ => s.cachedLen
  | none => (s.entries.length : Int)

/-- The closure `add_node`: make a fresh node (whose `_Node.__init__`
deduplicates the supplied callbacks), splice it in at the front of the list,
store it in the dict, and add its cost to `cached_cache_len`. -/
def add_node (cfg : Config V) (k : K) (v : V) (callbacks : List Nat)
    (s : CacheState K V) : CacheState K V :=
  let s1 := { s with entries := ⟨k, v, addCallbacks [] callbacks⟩ :: s.entries }
  match cfg.sizeCallback with
  | some f => { s1 with cachedLen := s1.cachedLen + f v }
  | none => s1

/-- The closure `delete_node`: splice the node out of the recency list (the
caller supplies the list with the node removed, mirroring the pointer-based
splice), subtract its cost from `cached_cache_len`, run and clear its
callbacks, and return `deleted_len`. -/
def delete_node (cfg : Config V) (node : Entry K V) (remaining : List (Entry K V))
    (s : CacheState K V) : Int × CacheState K V :=
  let deleted_len := entrySize cfg node.value
  let s1 := { s with entries := remaining, fired := s.fired ++ node.callbacks }
  match cfg.sizeCallback with
  | some f => (deleted_len, { s1 with cachedLen := s1.cachedLen - f node.value })
  | none => (deleted_len, s1)

/-- One pass of the closure `evict`, bounded by explicit fuel so that the
recursion is structural.  Each iteration deletes `list_root.prev_node` (the
last entry), pops it from the dict, and adds `evicted_len` to the eviction
counter.  Python has no emptiness guard: with an empty list it would spin on
the root sentinel forever, which is unreachable under consistent nonnegative
cost accounting and `max_size ≥ 0`; the model stops there instead. -/
def evictFuel (cfg : Config V) : Nat → CacheState K V → CacheState K V
  | 0, s => s
  | fuel + 1, s =>
    if cacheLen cfg s > s.maxSize then
      match s.entries.getLast? with
      | none => s
      | some todelete =>
        let r := delete_node cfg todelete s.entries.dropLast s
        evictFuel cfg fuel { r.2 with evictions := r.2.evictions + r.1 }
    else s

/-- The closure `evict`: loop while `cache_len() > self.max_size`; each
entry deleted strictly shrinks the list, so `entries.length` fuel suffices. -/
def evict (cfg : Config V) (s : CacheState K V) : CacheState K V :=
  evictFuel cfg s.entries.length s

/-- The closure `cache_get` (without the `default` argument: `none` models
returning the caller-supplied default).  On a hit: move to front, merge the
passed callbacks into the node, count a hit.  On a miss: count a miss. -/
def cache_get [DecidableEq K] (cfg : Config V) (k : K) (callbacks : List Nat)
    (update_metrics : Bool) (s : CacheState K V) : CacheState K V × Option V :=
  match findEntry s.entries k with
  | some node =>
    let node1 : Entry K V := { node with callbacks := addCallbacks node.callbacks callbacks }
    let s1 := { s with entries := node1 :: removeKey s.entries k }
    let s2 := if update_metrics then { s1 with hits := s1.hits + 1 } else s1
    (s2, some node.value)
  | none =>
    (if update_metrics then { s with misses := s.misses + 1 } else s, none)

/-- The wrapper used by callers that pass a default: `get(key, default)`. -/
def cache_get_default [DecidableEq K] (cfg : Config V) (k : K) (default : V)
    (callbacks : List Nat) (update_metrics : Bool) (s : CacheState K V) :
    CacheState K V × V :=
  let r := cache_get cfg k callbacks update_metrics s
  (r.1, r.2.getD default)

/-- The closure `cache_set`.  On a present key: fire and clear the node's
callbacks exactly when the new value compares unequal to the stored one,
adjust the cached cost by the delta, merge in the new callbacks, move to
front, store the value.  On an absent key: `add_node` with the deduplicated
callbacks.  Both paths end with the eviction loop. -/
def cache_set [DecidableEq K] [DecidableEq V] (cfg : Config V) (k : K) (v : V)
    (callbacks : List Nat) (s : CacheState K V) : CacheState K V :=
  match findEntry s.entries k with
  | some node =>
    let s1 := if v ≠ node.value then { s with fired := s.fired ++ node.callbacks } else s
    let s2 :=
      match cfg.sizeCallback with
      | some f => { s1 with cachedLen := s1.cachedLen - f node.value + f v }
      | none => s1
    let newCallbacks := addCallbacks (if v ≠ node.value then [] else node.callbacks) callbacks
    let node1 : Entry K V := { node with value := v, callbacks := newCallbacks }
    evict cfg { s2 with entries := node1 :: removeKey s2.entries k }
  | none =>
    evict cfg (add_node cfg k v (addCallbacks [] callbacks) s)

/-- The closure `cache_set_default`: return the stored value untouched when
the key is present; otherwise insert (with no callbacks), evict, and return
the given value. -/
def cache_set_default [DecidableEq K] (cfg : Config V) (k : K) (v : V)
    (s : CacheState K V) : CacheState K V × V :=
  match findEntry s.entries k with
  | some node => (s, node.value)
  | none => (evict cfg (add_node cfg k v [] s), v)

/-- The closure `cache_pop` (`none` models returning the default): on a
present key, `delete_node` then pop from the dict and return the value. -/
def cache_pop [DecidableEq K] (cfg : Config V) (k : K) (s : CacheState K V) :
    CacheState K V × Option V :=
  match findEntry s.entries k with
  | some node => ((delete_node cfg node (removeKey s.entries k) s).2, some node.value)
  | none => (s, none)

/-- The closure `cache_del_multi` for a flat (dict-backed) cache:
`cache.pop(key, None)`; on a miss, a no-op; otherwise
`iterate_tree_cache_entry` yields just the node itself, which is
`delete_node`d. -/
def cache_del_multi [DecidableEq K] (cfg : Config V) (k : K) (s : CacheState K V) :
    CacheState K V :=
  match findEntry s.entries k with
  | some node => (delete_node cfg node (removeKey s.entries k) s).2
  | none => s

/-- The closure `cache_clear`: relink the root to itself, run and clear every
node's callbacks, empty the dict, and zero the cached cost.  (Python fires
the callbacks in dict insertion order; the model uses recency-list order —
no property proved here depends on the order of this log segment.) -/
def cache_clear (cfg : Config V) (s : CacheState K V) : CacheState K V :=
  let s1 := { s with entries := [],
                     fired := s.fired ++ (s.entries.map Entry.callbacks).flatten }
  match cfg.sizeCallback with
  | some _ => { s1 with cachedLen := 0 }
  | none => s1

/-- The closure `cache_contains`: `key in cache`. -/
def cache_contains [DecidableEq K] (s : CacheState K V) (k : K) : Bool :=
  (findEntry s.entries k).isSome

/-- The method `LruCache.set_cache_factor`: a no-op returning `False` for an
instance constructed with `apply_cache_factor_from_config=False`; otherwise
recompute `int(self._original_max_size * factor)` and, when it differs from
the current `max_size`, store it, run `evict` (`self._on_resize`), and
return `True`. -/
def set_cache_factor (cfg : Config V) (factor : Rat) (s : CacheState K V) :
    CacheState K V × Bool :=
  if s.applyFactor = false then (s, false)
  else
    let new_size := pyInt (s.origMaxSize * factor)
    if new_size ≠ s.maxSize then
      (evict cfg { s with maxSize := new_size }, true)
    else (s, false)

/-- The method `LruCache.__getitem__`: `self.get(key, self.sentinel)` and a
`KeyError` (modelled as `Except.error ()`) when the sentinel comes back. -/
def lru_getitem [DecidableEq K] (cfg : Config V) (k : K) (s : CacheState K V) :
    CacheState K V × Except Unit V :=
  match cache_get cfg k [] true s with
  | (s1, some v) => (s1, Except.ok v)
  | (s1, none) => (s1, Except.error ())

/-- The body of `LruCache.__delitem__` (note that the Python method is
declared as `__delitem__(self, key, value)` with a spurious extra positional
parameter, unused by this body — see the theorem about it below):
`self.pop(key, self.sentinel)` and a `KeyError` when the sentinel comes
back. -/
def lru_delitem [DecidableEq K] (cfg : Config V) (k : K) (s : CacheState K V) :
    CacheState K V × Except Unit Unit :=
  match cache_pop cfg k s with
  | (s1, some _) => (s1, Except.ok ())
  | (s1, none) => (s1, Except.error ())

/-- Test whether the first tuple is an initial segment of the second (a
hierarchical cache key `b` lies under the possibly-shorter key `a`). -/
def tupleStartsWith [DecidableEq A] : List A → List A → Bool
  | [], _ => true
  | _ :: _, [] => false
  | a :: as, b :: bs => if a = b then tupleStartsWith as bs else false

/-- Modelled from the spec: the hierarchical key index (`TreeCache`, whose
source `synapse/util/caches/treecache.py` is not under `src/`).  Keys are
fixed-depth tuples; `cache.pop(key)` with a (possibly shorter) key removes
the whole subtree of entries whose full key extends it and returns the
removed leaves, which `iterate_tree_cache_entry` flattens; `cache_del_multi`
then runs `delete_node` on each returned leaf (unlink from the recency list,
cost adjustment, callbacks).  A missing key or prefix is a no-op. -/
def tree_del_multi [DecidableEq A] (cfg : Config V) (pre : List A)
    (s : CacheState (List A) V) : CacheState (List A) V :=
  let popped := s.entries.filter fun e => tupleStartsWith pre e.key
  if popped.isEmpty then s
  else
    popped.foldl (fun st leaf => (delete_node cfg leaf (removeKey st.entries leaf.key) st).2) s

/-- One public operation of the `LruCache` (the flat, dict-backed variant),
used to state invariants over every mutating operation at once. -/
inductive Op (K V : Type) where
  | get (k : K) (callbacks : List Nat) (update_metrics : Bool)
  | set (k : K) (v : V) (callbacks : List Nat)
  | setdefault (k : K) (v : V)
  | pop (k : K)
  | delMulti (k : K)
  | clear
  | setCacheFactor (factor : Rat)
  | contains (k : K)

/-- The state transformer of one public operation (return values dropped). -/
def step [DecidableEq K] [DecidableEq V] (cfg : Config V) :
    Op K V → CacheState K V → CacheState K V
  | Op.get k cbs um, s => (cache_get cfg k cbs um s).1
  | Op.set k v cbs, s => cache_set cfg k v cbs s
  | Op.setdefault k v, s => (cache_set_default cfg k v s).1
  | Op.pop k, s => (cache_pop cfg k s).1
  | Op.delMulti k, s => cache_del_multi cfg k s
  | Op.clear, s => cache_clear cfg s
  | Op.setCacheFactor f, s => (set_cache_factor cfg f s).1
  | Op.contains _, s => s

/-- Cost-accounting consistency: whenever a size callback is configured, the
cached length cell equals the sum of the callback over all live values. -/
def costConsistent (cfg : Config V) (s : CacheState K V) : Prop :=
  ∀ f, cfg.sizeCallback = some f → s.cachedLen = (s.entries.map fun e => f e.value).sum

/-- The configured cost of every value is nonnegative (the spec's interface
contract `cost_fn: value → integer ≥ 0`; trivially true for the unit cost). -/
def costNonneg (cfg : Config V) : Prop :=
  ∀ v : V, 0 ≤ entrySize cfg v

/-- State for the exception-sensitive model: the recency list and the
backing dict are kept separate, because when a callback raises, the code may
have unlinked a node from the list without yet having popped its key from
the dict.  Dict lookups are modelled through the recency list, which agrees
with the dict in every state reachable without a pending exception. -/
structure ExcState (K V : Type) where
  /-- Nodes currently linked into the recency list. -/
  entries : List (Entry K V)
  /-- Keys currently present in the backing dict. -/
  indexKeys : List K
  /-- `self.max_size`. -/
  maxSize : Int
  /-- The cell `cached_cache_len[0]`. -/
  cachedLen : Int
  /-- Metrics counter incremented by `metrics.inc_evictions(evicted_len)`. -/
  evictions : Int
  /-- Log of callbacks that ran to completion, in execution order. -/
  fired : List Nat
deriving Repr, DecidableEq

/-- The loop of `_Node.run_and_clear_callbacks` when callbacks may raise:
returns the callbacks that ran to completion (in order) and whether one
raised, in which case the remaining callbacks never run. -/
def runCallbacksExc (raises : Nat → Bool) : List Nat → List Nat × Bool
  | [] => ([], false)
  | cb :: rest =>
    if raises cb then ([], true)
    else
      let r := runCallbacksExc raises rest
      (cb :: r.1, r.2)

/-- The closure `delete_node` in the exception-sensitive model: the unlink
from the recency list and the cost adjustment are performed first, and only
then do the callbacks run (possibly raising).  Returns `deleted_len`, the
state, and whether a callback raised. -/
def delete_node_exc (cfg : Config V) (raises : Nat → Bool) (node : Entry K V)
    (remaining : List (Entry K V)) (s : ExcState K V) :
    Int × ExcState K V × Bool :=
  let deleted_len := entrySize cfg node.value
  let s1 : ExcState K V :=
    { s with entries := remaining
             cachedLen :=
               match cfg.sizeCallback with
               | some f => s.cachedLen - f node.value
               | none => s.cachedLen }
  let r := runCallbacksExc raises node.callbacks
  (deleted_len, { s1 with fired := s1.fired ++ r.1 }, r.2)

/-- Removal of the first occurrence of a key (the dict `cache.pop`). -/
def removeFirst [DecidableEq K] : List K → K → List K
  | [], _ => []
  | x :: xs, k => if x = k then xs else x :: removeFirst xs k

/-- The closure `cache_len()` over the exception-sensitive state: the
cached cost cell, or `len(cache)` — the size of the backing dict. -/
def cacheLenExc (cfg : Config V) (s : ExcState K V) : Int :=
  match cfg.sizeCallback with
  | some _ => s.cachedLen
  | none => (s.indexKeys.length : Int)

/-- The closure `cache_pop` in the exception-sensitive model: `delete_node`
runs first (unlink, cost adjustment, callbacks); a raise propagates before
the subsequent `cache.pop(node.key, None)` can remove the key from the
dict. -/
def cache_pop_exc [DecidableEq K] (cfg : Config V) (raises : Nat → Bool) (k : K)
    (s : ExcState K V) : ExcState K V × Except Unit (Option V) :=
  match findEntry s.entries k with
  | some node =>
    let r := delete_node_exc cfg raises node (removeKey s.entries k) s
    if r.2.2 then (r.2.1, Except.error ())
    else ({ r.2.1 with indexKeys := removeFirst r.2.1.indexKeys k },
      Except.ok (some node.value))
  | none => (s, Except.ok none)

/-- The closure `add_node` in the exception-sensitive model: splice the new
node in at the front, store its key in the dict (`cache[key] = node`; only
reached for absent keys), add its cost.  No callback runs here. -/
def add_node_exc (cfg : Config V) (k : K) (v : V) (callbacks : List Nat)
    (s : ExcState K V) : ExcState K V :=
  let s1 := { s with entries := ⟨k, v, addCallbacks [] callbacks⟩ :: s.entries,
                     indexKeys := k :: s.indexKeys }
  match cfg.sizeCallback with
  | some f => { s1 with cachedLen := s1.cachedLen + f v }
  | none => s1

/-- The closure `evict` in the exception-sensitive model (fuel-bounded as in
the pure model): each iteration runs `delete_node` on `list_root.prev_node`
— unlink and cost adjustment, then the node's callbacks — and only when no
callback raised pops the key from the dict and bumps the eviction counter;
a raise stops the loop with the key still in the dict.  Returns the state
and whether a callback raised. -/
def evictFuelExc [DecidableEq K] (cfg : Config V) (raises : Nat → Bool) :
    Nat → ExcState K V → ExcState K V × Bool
  | 0, s => (s, false)
  | fuel + 1, s =>
    if cacheLenExc cfg s > s.maxSize then
      match s.entries.getLast? with
      | none => (s, false)
      | some todelete =>
        let r := delete_node_exc cfg raises todelete s.entries.dropLast s
        if r.2.2 then (r.2.1, true)
        else
          evictFuelExc cfg raises fuel
            { r.2.1 with indexKeys := removeFirst r.2.1.indexKeys todelete.key,
                         evictions := r.2.1.evictions + r.1 }
    else (s, false)

/-- The eviction loop in the exception-sensitive model. -/
def evictExc [DecidableEq K] (cfg : Config V) (raises : Nat → Bool)
    (s : ExcState K V) : ExcState K V × Bool :=
  evictFuelExc cfg raises s.entries.length s

/-- The closure `cache_set` in the exception-sensitive model.  On a present
key with an unequal value, `run_and_clear_callbacks` fires FIRST — before
the cost adjustment, the callback merge, the move to front and the value
store — so a raise there propagates with no part of the mutation applied;
otherwise the update proceeds as in the pure model and the trailing
eviction loop may itself raise. -/
def cache_set_exc [DecidableEq K] [DecidableEq V] (cfg : Config V)
    (raises : Nat → Bool) (k : K) (v : V) (callbacks : List Nat)
    (s : ExcState K V) : ExcState K V × Bool :=
  match findEntry s.entries k with
  | some node =>
    let rc := if v ≠ node.value then runCallbacksExc raises node.callbacks
      else ([], false)
    let s1 := { s with fired := s.fired ++ rc.1 }
    if rc.2 then (s1, true)
    else
      let s2 :=
        match cfg.sizeCallback with
        | some f => { s1 with cachedLen := s1.cachedLen - f node.value + f v }
        | none => s1
      let newCallbacks := addCallbacks (if v ≠ node.value then [] else node.callbacks)
        callbacks
      evictExc cfg raises
        { s2 with entries := ⟨node.key, v, newCallbacks⟩ :: removeKey s2.entries k }
  | none =>
    evictExc cfg raises (add_node_exc cfg k v (addCallbacks [] callbacks) s)

/-- The closure `cache_del_multi` (flat cache) in the exception-sensitive
model: `cache.pop(key, None)` removes the key from the dict BEFORE
`delete_node` runs the entry's callbacks, so a raise leaves the key already
gone from the index. -/
def cache_del_multi_exc [DecidableEq K] (cfg : Config V) (raises : Nat → Bool)
    (k : K) (s : ExcState K V) : ExcState K V × Bool :=
  match findEntry s.entries k with
  | none => (s, false)
  | some node =>
    let s1 := { s with indexKeys := removeFirst s.indexKeys k }
    let r := delete_node_exc cfg raises node (removeKey s1.entries k) s1
    (r.2.1, r.2.2)

/-- The loop `for node in cache.values(): node.run_and_clear_callbacks()` of
`cache_clear` when callbacks may raise: nodes run in order until one
callback raises; later nodes then never run. -/
def runNodesExc (raises : Nat → Bool) : List (Entry K V) → List Nat × Bool
  | [] => ([], false)
  | node :: rest =>
    let r := runCallbacksExc raises node.callbacks
    if r.2 then (r.1, true)
    else
      let r2 := runNodesExc raises rest
      (r.1 ++ r2.1, r2.2)

/-- The closure `cache_clear` in the exception-sensitive model: the root is
relinked to itself FIRST (every entry unlinked from the recency list), then
the callbacks run node by node; only after all of them complete does
`cache.clear()` empty the dict and the cost cell reset to zero, so a raise
leaves the dict and the cost cell untouched. -/
def cache_clear_exc (cfg : Config V) (raises : Nat → Bool) (s : ExcState K V) :
    ExcState K V × Bool :=
  let r := runNodesExc raises s.entries
  let s1 := { s with entries := ([] : List (Entry K V)), fired := s.fired ++ r.1 }
  if r.2 then (s1, true)
  else
    let s2 := { s1 with indexKeys := ([] : List K) }
    match cfg.sizeCallback with
    | some _ => ({ s2 with cachedLen := 0 }, false)
    | none => (s2, false)

/-- Helper for the `set(k, v)`-sequence statements: the entry such a `set`
creates (fresh key, no callbacks). -/
def mkEntry (kv : K × V) : Entry K V :=
  ⟨kv.1, kv.2, []⟩

/-- The state reached from an empty unit-cost cache of capacity `N` by
running `set(k, v)` for the pairs of `done`, oldest first. -/
def stateOfSets (N : Nat) (done : List (K × V)) : CacheState K V :=
  { entries := (done.reverse.take N).map mkEntry
    maxSize := (N : Int)
    origMaxSize := (N : Int)
    applyFactor := false
    hits := 0
    misses := 0
    evictions := ((done.length - N : Nat) : Int)
    cachedLen := 0
    fired := [] }

/-- Resize scenario state: nominal size 10, scaling enabled with initial
factor 1, then ten entries inserted. -/
def scenario10 : CacheState Nat Nat :=
  (List.range 10).foldl (fun s i => cache_set ⟨none⟩ i i [] s) (initCache Nat Nat 10 true 1)

/-- Cost-function scenario configuration: the cost of a value is its length. -/
def costCfg : Config String :=
  ⟨some fun v => (v.length : Int)⟩

/-- Cost-function scenario: capacity 2 (no scaling), then `set("k", "xyz")`
where the single value has cost 3. -/
def bigEntryState : CacheState String String :=
  cache_set costCfg "k" "xyz" [] (initCache String String 2 false 1)

/-- Hierarchical scenario state: 2-level string-tuple keys,
`set(("a","1"), 1)` with callback 1, then `set(("a","2"), 2)` with
callback 2, in a cache of ample capacity. -/
def treeScenario : CacheState (List String) Nat :=
  cache_set ⟨none⟩ ["a", "2"] 2 [2]
    (cache_set ⟨none⟩ ["a", "1"] 1 [1] (initCache (List String) Nat 10 false 1))

/-- Exception scenario: one entry under key `1` whose single callback `0`
raises, with the key present in the backing dict. -/
def excScenario : ExcState Nat Nat :=
  { entries := [⟨1, 7, [0]⟩], indexKeys := [1], maxSize := 10, cachedLen := 0,
    evictions := 0, fired := [] }

/-- Small concrete cache used by witnesses: one entry, key 1, value 10, no
callbacks, capacity 5, no scaling. -/
def oneEntryState : CacheState Nat Nat :=
  { entries := [⟨1, 10, []⟩], maxSize := 5, origMaxSize := 5, applyFactor := false,
    hits := 0, misses := 0, evictions := 0, cachedLen := 0, fired := [] }

section Lemmas

variable {K V A : Type}

theorem findEntry_nil [DecidableEq K] (k : K) : findEntry ([] : List (Entry K V)) k = none :=
  rfl

theorem findEntry_cons [DecidableEq K] (e : Entry K V) (es : List (Entry K V)) (k : K) :
    findEntry (e :: es) k = if e.key = k then some e else findEntry es k := by
  by_cases h : e.key = k <;> simp [findEntry, List.find?_cons, h]

theorem findEntry_key [DecidableEq K] {l : List (Entry K V)} {k : K} {e : Entry K V}
    (h : findEntry l k = some e) : e.key = k := by
  simpa using List.find?_some h

theorem findEntry_mem [DecidableEq K] {l : List (Entry K V)} {k : K} {e : Entry K V}
    (h : findEntry l k = some e) : e ∈ l :=
  List.mem_of_find?_eq_some h

theorem findEntry_eq_none [DecidableEq K] {l : List (Entry K V)} {k : K} :
    findEntry l k = none ↔ ∀ e ∈ l, e.key ≠ k := by
  simp [findEntry, List.find?_eq_none]

theorem length_removeKey [DecidableEq K] {l : List (Entry K V)} {k : K} {e : Entry K V}
    (h : findEntry l k = some e) : (removeKey l k).length + 1 = l.length := by
  induction l with
  | nil => simp [findEntry] at h
  | cons a as ih =>
    rw [findEntry_cons] at h
    by_cases hk : a.key = k
    · simp [removeKey, hk]
    · simp only [hk, if_false] at h
      simp [removeKey, hk, ih h]

theorem sum_map_removeKey [DecidableEq K] (f : Entry K V → Int) {l : List (Entry K V)}
    {k : K} {e : Entry K V} (h : findEntry l k = some e) :
    ((removeKey l k).map f).sum = (l.map f).sum - f e := by
  induction l with
  | nil => simp [findEntry] at h
  | cons a as ih =>
    rw [findEntry_cons] at h
    by_cases hk : a.key = k
    · simp only [hk, if_true] at h
      obtain rfl : a = e := by injection h
      simp [removeKey, hk]
    · simp only [hk, if_false] at h
      simp [removeKey, hk, ih h]
      ring

theorem flatten_map_const_nil {α : Type} (l : List α) :
    (l.map fun _ => ([] : List Nat)).flatten = [] := by
  induction l <;> simp [*]

theorem evictFuel_none (cfg : Config V) (hcfg : cfg.sizeCallback = none) :
    ∀ (fuel : Nat) (s : CacheState K V), s.entries.length ≤ fuel →
      evictFuel cfg fuel s =
        { s with
            entries := s.entries.take s.maxSize.toNat
            evictions := s.evictions + ((s.entries.length - s.maxSize.toNat : Nat) : Int)
            fired := s.fired ++
              ((s.entries.drop s.maxSize.toNat).reverse.map Entry.callbacks).flatten } := by
  intro fuel
  induction fuel with
  | zero =>
    intro s hs
    obtain ⟨ents, ms, oms, af, ht, mi, ev, cl, fr⟩ := s
    dsimp only at hs ⊢
    have h0 : ents = [] := List.length_eq_zero.mp (Nat.le_zero.mp hs)
    subst h0
    simp [evictFuel, CacheState.mk.injEq]
  | succ fuel ih =>
    intro s hs
    obtain ⟨ents, ms, oms, af, ht, mi, ev, cl, fr⟩ := s
    dsimp only at hs ⊢
    by_cases hguard : (ents.length : Int) > ms
    · by_cases hE : ents = []
      · subst hE
        simp only [List.length_nil, Nat.cast_zero, gt_iff_lt] at hguard
        simp [evictFuel, cacheLen, hcfg, hguard, CacheState.mk.injEq]
      · have hg : ents.getLast? = some (ents.getLast hE) :=
          List.getLast?_eq_getLast ents hE
        have hlen1 : 1 ≤ ents.length := by
          cases ents with
          | nil => exact absurd rfl hE
          | cons a l => simp
        have hm : ms.toNat ≤ ents.dropLast.length := by
          rw [List.length_dropLast]
          omega
        have hsplit : ents.dropLast ++ [ents.getLast hE] = ents :=
          List.dropLast_append_getLast hE
        have hstep :
            evictFuel cfg (fuel + 1) ⟨ents, ms, oms, af, ht, mi, ev, cl, fr⟩ =
              evictFuel cfg fuel
                ⟨ents.dropLast, ms, oms, af, ht, mi, ev + 1, cl,
                  fr ++ (ents.getLast hE).callbacks⟩ := by
          simp [evictFuel, cacheLen, hcfg, hguard, hg, delete_node, entrySize]
        have hlfuel : ents.dropLast.length ≤ fuel := by
          rw [List.length_dropLast]
          omega
        rw [hstep, ih _ hlfuel]
        have htake : ents.dropLast.take ms.toNat = ents.take ms.toNat := by
          conv_rhs => rw [← hsplit]
          rw [List.take_append_of_le_length hm]
        have hdrop : ents.drop ms.toNat = ents.dropLast.drop ms.toNat ++ [ents.getLast hE] := by
          conv_lhs => rw [← hsplit]
          rw [List.drop_append_of_le_length hm]
        simp only [CacheState.mk.injEq, htake, hdrop, true_and, and_true]
        refine ⟨?_, ?_⟩
        · have hld := List.length_dropLast ents
          omega
        · rw [List.reverse_append]
          simp [List.append_assoc]
    · have h2 : ents.length ≤ ms.toNat := by omega
      simp [evictFuel, cacheLen, hcfg, hguard, List.take_of_length_le h2,
        List.drop_eq_nil_of_le h2, Nat.sub_eq_zero_of_le h2, CacheState.mk.injEq]

theorem evict_none (cfg : Config V) (hcfg : cfg.sizeCallback = none) (s : CacheState K V) :
    evict cfg s =
      { s with
          entries := s.entries.take s.maxSize.toNat
          evictions := s.evictions + ((s.entries.length - s.maxSize.toNat : Nat) : Int)
          fired := s.fired ++
            ((s.entries.drop s.maxSize.toNat).reverse.map Entry.callbacks).flatten } :=
  evictFuel_none cfg hcfg s.entries.length s le_rfl

theorem costConsistent_of_none (cfg : Config V) (hcfg : cfg.sizeCallback = none)
    (s : CacheState K V) : costConsistent cfg s := by
  intro f hf
  rw [hcfg] at hf
  exact absurd hf (by simp)

theorem evictFuel_invariant_some (cfg : Config V) (f : V → Int)
    (hcb : cfg.sizeCallback = some f) :
    ∀ (fuel : Nat) (s : CacheState K V), s.entries.length ≤ fuel →
      s.cachedLen = (s.entries.map fun e => f e.value).sum →
      (evictFuel cfg fuel s).cachedLen =
        ((evictFuel cfg fuel s).entries.map fun e => f e.value).sum ∧
      (evictFuel cfg fuel s).maxSize = s.maxSize ∧
      (0 ≤ s.maxSize → (evictFuel cfg fuel s).cachedLen ≤ s.maxSize) := by
  intro fuel
  induction fuel with
  | zero =>
    intro s hs hc
    have h0 : s.entries = [] := List.length_eq_zero.mp (Nat.le_zero.mp hs)
    have hzero : s.cachedLen = 0 := by rw [hc, h0]; simp
    exact ⟨hc, rfl, fun hms => by simpa [evictFuel, hzero] using hms⟩
  | succ fuel ih =>
    intro s hs hc
    by_cases hguard : cacheLen cfg s > s.maxSize
    · rcases hE : s.entries with _ | ⟨e0, es⟩
      · have hg : s.entries.getLast? = none := by rw [hE]; rfl
        have hfix : evictFuel cfg (fuel + 1) s = s := by
          simp [evictFuel, hguard, hg]
        rw [hfix]
        have hzero : s.cachedLen = 0 := by rw [hc, hE]; simp
        refine ⟨hc, rfl, fun hms => ?_⟩
        have : s.cachedLen > s.maxSize := by simpa [cacheLen, hcb] using hguard
        omega
      · have hne : s.entries ≠ [] := by rw [hE]; simp
        have hg : s.entries.getLast? = some (s.entries.getLast hne) :=
          List.getLast?_eq_getLast _ hne
        have hlen1 : 1 ≤ s.entries.length := by rw [hE]; simp
        have hsplit : s.entries.dropLast ++ [s.entries.getLast hne] = s.entries :=
          List.dropLast_append_getLast hne
        have hstep :
            evictFuel cfg (fuel + 1) s =
              evictFuel cfg fuel
                { s with
                    entries := s.entries.dropLast
                    cachedLen := s.cachedLen - f (s.entries.getLast hne).value
                    fired := s.fired ++ (s.entries.getLast hne).callbacks
                    evictions := s.evictions + f (s.entries.getLast hne).value } := by
          simp [evictFuel, hguard, hg, delete_node, hcb, entrySize]
        have hsum1 : (s.entries.map fun e => f e.value).sum =
            (s.entries.dropLast.map fun e => f e.value).sum +
              f (s.entries.getLast hne).value := by
          conv_lhs => rw [← hsplit]
          simp
        have hc1 : s.cachedLen - f (s.entries.getLast hne).value =
            (s.entries.dropLast.map fun e => f e.value).sum := by
          rw [hc, hsum1]
          ring
        have hlfuel : s.entries.dropLast.length ≤ fuel := by
          rw [List.length_dropLast]
          omega
        obtain ⟨ih1, ih2, ih3⟩ := ih
          { s with
              entries := s.entries.dropLast
              cachedLen := s.cachedLen - f (s.entries.getLast hne).value
              fired := s.fired ++ (s.entries.getLast hne).callbacks
              evictions := s.evictions + f (s.entries.getLast hne).value }
          (by simpa using hlfuel) (by simpa using hc1)
        rw [hstep]
        exact ⟨ih1, ih2, ih3⟩
    · have hfix : evictFuel cfg (fuel + 1) s = s := by
        simp [evictFuel, hguard]
      rw [hfix]
      refine ⟨hc, rfl, fun hms => ?_⟩
      have : ¬ s.cachedLen > s.maxSize := by simpa [cacheLen, hcb] using hguard
      omega

theorem evict_invariant (cfg : Config V) (s : CacheState K V)
    (hc : costConsistent cfg s) :
    costConsistent cfg (evict cfg s) ∧
    (evict cfg s).maxSize = s.maxSize ∧
    (0 ≤ s.maxSize → cacheLen cfg (evict cfg s) ≤ s.maxSize) := by
  cases hcb : cfg.sizeCallback with
  | none =>
    rw [evict_none cfg hcb]
    refine ⟨costConsistent_of_none cfg hcb _, rfl, fun hms => ?_⟩
    have h1 : (s.entries.take s.maxSize.toNat).length ≤ s.maxSize.toNat := by
      rw [List.length_take]
      omega
    simp only [cacheLen, hcb]
    omega
  | some f =>
    obtain ⟨h1, h2, h3⟩ :=
      evictFuel_invariant_some cfg f hcb s.entries.length s le_rfl (hc f hcb)
    refine ⟨?_, h2, fun hms => ?_⟩
    · intro g hg
      rw [hcb] at hg
      obtain rfl : f = g := by injection hg
      exact h1
    · simpa [cacheLen, hcb] using h3 hms

theorem costConsistent_congr {cfg : Config V} {s t : CacheState K V}
    (he : t.entries = s.entries) (hl : t.cachedLen = s.cachedLen)
    (hc : costConsistent cfg s) : costConsistent cfg t := by
  intro g hg
  rw [he, hl]
  exact hc g hg

theorem cacheLen_congr (cfg : Config V) {s t : CacheState K V}
    (he : t.entries = s.entries) (hl : t.cachedLen = s.cachedLen) :
    cacheLen cfg t = cacheLen cfg s := by
  cases hcb : cfg.sizeCallback <;> simp [cacheLen, hcb, he, hl]

theorem sum_map_cons_removeKey [DecidableEq K] (g : V → Int) {l : List (Entry K V)} {k : K}
    {e : Entry K V} (hfind : findEntry l k = some e) (e' : Entry K V) (hv : e'.value = e.value) :
    ((e' :: removeKey l k).map fun en => g en.value).sum = (l.map fun en => g en.value).sum := by
  have h := sum_map_removeKey (fun en => g en.value) hfind
  simp only [List.map_cons, List.sum_cons, h, hv]
  ring

theorem add_node_maxSize (cfg : Config V) (k : K) (v : V) (cbs : List Nat)
    (s : CacheState K V) : (add_node cfg k v cbs s).maxSize = s.maxSize := by
  cases hcb : cfg.sizeCallback <;> simp [add_node, hcb]

theorem add_node_consistent (cfg : Config V) (k : K) (v : V) (cbs : List Nat)
    (s : CacheState K V) (hc : costConsistent cfg s) :
    costConsistent cfg (add_node cfg k v cbs s) := by
  intro g hg
  simp [add_node, hg, hc g hg]
  ring

theorem del_multi_eq_pop [DecidableEq K] (cfg : Config V) (k : K) (s : CacheState K V) :
    cache_del_multi cfg k s = (cache_pop cfg k s).1 := by
  cases hfind : findEntry s.entries k <;> simp [cache_del_multi, cache_pop, hfind]

theorem pop_invariant [DecidableEq K] (cfg : Config V) (k : K) (s : CacheState K V)
    (hnn : costNonneg cfg) (hc : costConsistent cfg s) (hb : cacheLen cfg s ≤ s.maxSize) :
    costConsistent cfg (cache_pop cfg k s).1 ∧
    (cache_pop cfg k s).1.maxSize = s.maxSize ∧
    cacheLen cfg (cache_pop cfg k s).1 ≤ s.maxSize := by
  rcases hfind : findEntry s.entries k with _ | e
  · have hstep : (cache_pop cfg k s).1 = s := by simp [cache_pop, hfind]
    rw [hstep]
    exact ⟨hc, rfl, hb⟩
  · cases hcb : cfg.sizeCallback with
    | none =>
      have hstep : (cache_pop cfg k s).1 =
          { s with entries := removeKey s.entries k, fired := s.fired ++ e.callbacks } := by
        simp [cache_pop, hfind, delete_node, hcb]
      rw [hstep]
      refine ⟨costConsistent_of_none cfg hcb _, rfl, ?_⟩
      have hlen := length_removeKey hfind
      have hbl : ((s.entries.length : Int)) ≤ s.maxSize := by simpa [cacheLen, hcb] using hb
      simp only [cacheLen, hcb]
      omega
    | some f =>
      have hstep : (cache_pop cfg k s).1 =
          { s with entries := removeKey s.entries k, fired := s.fired ++ e.callbacks,
                   cachedLen := s.cachedLen - f e.value } := by
        simp [cache_pop, hfind, delete_node, hcb]
      rw [hstep]
      have hfe : 0 ≤ f e.value := by
        have h := hnn e.value
        simpa [entrySize, hcb] using h
      have hbl : s.cachedLen ≤ s.maxSize := by simpa [cacheLen, hcb] using hb
      refine ⟨?_, rfl, ?_⟩
      · intro g hg
        rw [hcb] at hg
        obtain rfl : f = g := by injection hg
        have h := sum_map_removeKey (fun en => f en.value) hfind
        simp only [h, hc f hcb]
      · simp only [cacheLen, hcb]
        omega

theorem step_cost_invariant [DecidableEq K] [DecidableEq V] (cfg : Config V)
    (op : Op K V) (s : CacheState K V) (hnn : costNonneg cfg)
    (hc : costConsistent cfg s) (hb : cacheLen cfg s ≤ s.maxSize) :
    costConsistent cfg (step cfg op s) ∧
    (0 ≤ (step cfg op s).maxSize →
      cacheLen cfg (step cfg op s) ≤ (step cfg op s).maxSize) := by
  cases op with
  | get k cbs um =>
    rcases hfind : findEntry s.entries k with _ | e
    · cases um with
      | false =>
        have hstep : step cfg (Op.get k cbs false) s = s := by
          simp [step, cache_get, hfind]
        rw [hstep]
        exact ⟨hc, fun _ => hb⟩
      | true =>
        have hstep : step cfg (Op.get k cbs true) s = { s with misses := s.misses + 1 } := by
          simp [step, cache_get, hfind]
        rw [hstep]
        exact ⟨hc, fun _ => hb⟩
    · have hlen := length_removeKey hfind
      have hcons : costConsistent cfg
          { s with entries := ({ e with callbacks := addCallbacks e.callbacks cbs } ::
              removeKey s.entries k) } := by
        intro g hg
        have h := sum_map_cons_removeKey g hfind
          { e with callbacks := addCallbacks e.callbacks cbs } rfl
        dsimp only at h ⊢
        rw [h]
        exact hc g hg
      have hlen2 : cacheLen cfg
          { s with entries := ({ e with callbacks := addCallbacks e.callbacks cbs } ::
              removeKey s.entries k) } ≤ s.maxSize := by
        cases hcb : cfg.sizeCallback with
        | none =>
          have hbl : ((s.entries.length : Int)) ≤ s.maxSize := by
            simpa [cacheLen, hcb] using hb
          simp only [cacheLen, hcb, List.length_cons]
          omega
        | some f =>
          have hbl : s.cachedLen ≤ s.maxSize := by simpa [cacheLen, hcb] using hb
          simpa [cacheLen, hcb] using hbl
      cases um with
      | false =>
        have hstep : step cfg (Op.get k cbs false) s =
            { s with entries := ({ e with callbacks := addCallbacks e.callbacks cbs } ::
                removeKey s.entries k) } := by
          simp [step, cache_get, hfind]
        rw [hstep]
        exact ⟨hcons, fun _ => hlen2⟩
      | true =>
        have hstep : step cfg (Op.get k cbs true) s =
            { s with entries := ({ e with callbacks := addCallbacks e.callbacks cbs } ::
                removeKey s.entries k), hits := s.hits + 1 } := by
          simp [step, cache_get, hfind]
        rw [hstep]
        exact ⟨hcons, fun _ => hlen2⟩
  | set k v cbs =>
    rcases hfind : findEntry s.entries k with _ | e
    · have hstep : step cfg (Op.set k v cbs) s =
          evict cfg (add_node cfg k v (addCallbacks [] cbs) s) := by
        simp [step, cache_set, hfind]
      rw [hstep]
      obtain ⟨h1, h2, h3⟩ := evict_invariant cfg _ (add_node_consistent cfg k v _ s hc)
      rw [add_node_maxSize] at h2 h3
      exact ⟨h1, fun h0 => by rw [h2] at h0 ⊢; exact h3 h0⟩
    · by_cases hv : v = e.value
      · cases hcb : cfg.sizeCallback with
        | none =>
          have hstep : step cfg (Op.set k v cbs) s =
              evict cfg { s with entries :=
                ({ e with value := v, callbacks := addCallbacks e.callbacks cbs } ::
                  removeKey s.entries k) } := by
            simp [step, cache_set, hfind, hv, hcb]
          rw [hstep]
          obtain ⟨h1, h2, h3⟩ := evict_invariant cfg
            { s with entries :=
              ({ e with value := v, callbacks := addCallbacks e.callbacks cbs } ::
                removeKey s.entries k) } (costConsistent_of_none cfg hcb _)
          exact ⟨h1, fun h0 => by rw [h2] at h0 ⊢; exact h3 h0⟩
        | some f =>
          have hstep : step cfg (Op.set k v cbs) s =
              evict cfg { s with
                cachedLen := s.cachedLen - f e.value + f v,
                entries :=
                  ({ e with value := v, callbacks := addCallbacks e.callbacks cbs } ::
                    removeKey s.entries k) } := by
            simp [step, cache_set, hfind, hv, hcb]
          rw [hstep]
          have hcons : costConsistent cfg { s with
              cachedLen := s.cachedLen - f e.value + f v,
              entries :=
                ({ e with value := v, callbacks := addCallbacks e.callbacks cbs } ::
                  removeKey s.entries k) } := by
            intro g hg
            rw [hcb] at hg
            obtain rfl : f = g := by injection hg
            have h := sum_map_removeKey (fun en => f en.value) hfind
            dsimp only
            simp only [List.map_cons, List.sum_cons, h, hc f hcb]
            ring
          obtain ⟨h1, h2, h3⟩ := evict_invariant cfg _ hcons
          exact ⟨h1, fun h0 => by rw [h2] at h0 ⊢; exact h3 h0⟩
      · cases hcb : cfg.sizeCallback with
        | none =>
          have hstep : step cfg (Op.set k v cbs) s =
              evict cfg { s with
                fired := s.fired ++ e.callbacks,
                entries :=
                  ({ e with value := v, callbacks := addCallbacks [] cbs } ::
                    removeKey s.entries k) } := by
            simp [step, cache_set, hfind, hv, hcb]
          rw [hstep]
          obtain ⟨h1, h2, h3⟩ := evict_invariant cfg _ (costConsistent_of_none cfg hcb
            { s with
                fired := s.fired ++ e.callbacks,
                entries :=
                  ({ e with value := v, callbacks := addCallbacks [] cbs } ::
                    removeKey s.entries k) })
          exact ⟨h1, fun h0 => by rw [h2] at h0 ⊢; exact h3 h0⟩
        | some f =>
          have hstep : step cfg (Op.set k v cbs) s =
              evict cfg { s with
                fired := s.fired ++ e.callbacks,
                cachedLen := s.cachedLen - f e.value + f v,
                entries :=
                  ({ e with value := v, callbacks := addCallbacks [] cbs } ::
                    removeKey s.entries k) } := by
            simp [step, cache_set, hfind, hv, hcb]
          rw [hstep]
          have hcons : costConsistent cfg { s with
              fired := s.fired ++ e.callbacks,
              cachedLen := s.cachedLen - f e.value + f v,
              entries :=
                ({ e with value := v, callbacks := addCallbacks [] cbs } ::
                  removeKey s.entries k) } := by
            intro g hg
            rw [hcb] at hg
            obtain rfl : f = g := by injection hg
            have h := sum_map_removeKey (fun en => f en.value) hfind
            dsimp only
            simp only [List.map_cons, List.sum_cons, h, hc f hcb]
            ring
          obtain ⟨h1, h2, h3⟩ := evict_invariant cfg _ hcons
          exact ⟨h1, fun h0 => by rw [h2] at h0 ⊢; exact h3 h0⟩
  | setdefault k v =>
    rcases hfind : findEntry s.entries k with _ | e
    · have hstep : step cfg (Op.setdefault k v) s =
          evict cfg (add_node cfg k v [] s) := by
        simp [step, cache_set_default, hfind]
      rw [hstep]
      obtain ⟨h1, h2, h3⟩ := evict_invariant cfg _ (add_node_consistent cfg k v [] s hc)
      rw [add_node_maxSize] at h2 h3
      exact ⟨h1, fun h0 => by rw [h2] at h0 ⊢; exact h3 h0⟩
    · have hstep : step cfg (Op.setdefault k v) s = s := by
        simp [step, cache_set_default, hfind]
      rw [hstep]
      exact ⟨hc, fun _ => hb⟩
  | pop k =>
    obtain ⟨h1, h2, h3⟩ := pop_invariant cfg k s hnn hc hb
    exact ⟨h1, fun _ => by rw [show (step cfg (Op.pop k) s) = (cache_pop cfg k s).1 from rfl, h2]; exact h3⟩
  | delMulti k =>
    have hd : step cfg (Op.delMulti k) s = (cache_pop cfg k s).1 := by
      rw [show step cfg (Op.delMulti k) s = cache_del_multi cfg k s from rfl,
        del_multi_eq_pop]
    obtain ⟨h1, h2, h3⟩ := pop_invariant cfg k s hnn hc hb
    rw [hd]
    exact ⟨h1, fun _ => by rw [h2]; exact h3⟩
  | clear =>
    cases hcb : cfg.sizeCallback with
    | none =>
      have hstep : step cfg Op.clear s =
          { s with entries := [],
                   fired := s.fired ++ (s.entries.map Entry.callbacks).flatten } := by
        simp [step, cache_clear, hcb]
      rw [hstep]
      refine ⟨costConsistent_of_none cfg hcb _, fun h0 => ?_⟩
      simpa [cacheLen, hcb] using h0
    | some f =>
      have hstep : step cfg Op.clear s =
          { s with entries := [], cachedLen := 0,
                   fired := s.fired ++ (s.entries.map Entry.callbacks).flatten } := by
        simp [step, cache_clear, hcb]
      rw [hstep]
      refine ⟨?_, fun h0 => ?_⟩
      · intro g hg
        simp
      · simpa [cacheLen, hcb] using h0
  | setCacheFactor factor =>
    by_cases haf : s.applyFactor = false
    · have hstep : step cfg (Op.setCacheFactor factor) s = s := by
        simp [step, set_cache_factor, haf]
      rw [hstep]
      exact ⟨hc, fun _ => hb⟩
    · by_cases hns : pyInt (s.origMaxSize * factor) = s.maxSize
      · have hstep : step cfg (Op.setCacheFactor factor) s = s := by
          simp [step, set_cache_factor, haf, hns]
        rw [hstep]
        exact ⟨hc, fun _ => hb⟩
      · have hstep : step cfg (Op.setCacheFactor factor) s =
            evict cfg { s with maxSize := pyInt (s.origMaxSize * factor) } := by
          simp [step, set_cache_factor, haf, hns]
        rw [hstep]
        obtain ⟨h1, h2, h3⟩ := evict_invariant cfg
          { s with maxSize := pyInt (s.origMaxSize * factor) }
          (costConsistent_congr rfl rfl hc)
        exact ⟨h1, fun h0 => by rw [h2] at h0 ⊢; exact h3 h0⟩
  | contains k =>
    exact ⟨hc, fun _ => hb⟩

theorem flatten_callbacks_nil {l : List (Entry K V)} (h : ∀ e ∈ l, e.callbacks = []) :
    (l.map Entry.callbacks).flatten = [] := by
  induction l with
  | nil => simp
  | cons a as ih =>
    simp only [List.map_cons, List.flatten_cons, h a (by simp)]
    simpa using ih fun e he => h e (by simp [he])

theorem evict_none_noop (cfg : Config V) (hcfg : cfg.sizeCallback = none)
    (s : CacheState K V) (hlen : (s.entries.length : Int) ≤ s.maxSize) :
    evict cfg s = s := by
  rw [evict_none cfg hcfg]
  have h2 : s.entries.length ≤ s.maxSize.toNat := by omega
  simp [List.take_of_length_le h2, List.drop_eq_nil_of_le h2, Nat.sub_eq_zero_of_le h2]

theorem addCallbacks_nil_nil : addCallbacks [] [] = [] := rfl

theorem cache_set_fresh [DecidableEq K] [DecidableEq V] (N : Nat) (done : List (K × V))
    (kv : K × V) (hfresh : kv.1 ∉ done.map Prod.fst) :
    cache_set (⟨none⟩ : Config V) kv.1 kv.2 [] (stateOfSets N done) =
      stateOfSets N (done ++ [kv]) := by
  have hfind : findEntry (stateOfSets N done).entries kv.1 = none := by
    rw [findEntry_eq_none]
    intro e he
    simp only [stateOfSets, List.mem_map] at he
    obtain ⟨kv2, hkv2, rfl⟩ := he
    have hmem : kv2 ∈ done := by
      have h1 := List.mem_of_mem_take hkv2
      exact List.mem_reverse.mp h1
    intro hkey
    exact hfresh (by
      rw [← hkey]
      exact List.mem_map_of_mem Prod.fst hmem)
  have hset : cache_set (⟨none⟩ : Config V) kv.1 kv.2 [] (stateOfSets N done) =
      evict ⟨none⟩ ⟨mkEntry kv :: (done.reverse.take N).map mkEntry, (N : Int), (N : Int),
        false, 0, 0, ((done.length - N : Nat) : Int), 0, []⟩ := by
    simp only [cache_set]
    rw [hfind]
    simp only [add_node, addCallbacks, List.foldl_nil, stateOfSets, mkEntry]
  rw [hset, evict_none ⟨none⟩ rfl]
  have hNtoNat : ((N : Int)).toNat = N := Int.toNat_natCast N
  have hElen : ((done.reverse.take N).map mkEntry).length = min N done.length := by
    rw [List.length_map, List.length_take, List.length_reverse]
  have hcbs : ∀ e ∈ mkEntry kv :: (done.reverse.take N).map mkEntry, e.callbacks = [] := by
    intro e he
    rcases List.mem_cons.mp he with rfl | he2
    · rfl
    · obtain ⟨kv2, _, rfl⟩ := List.mem_map.mp he2
      rfl
  have hfired : (((mkEntry kv :: (done.reverse.take N).map mkEntry).drop N).reverse.map
      Entry.callbacks).flatten = [] := by
    apply flatten_callbacks_nil
    intro e he
    exact hcbs e (List.mem_of_mem_drop (List.mem_reverse.mp he))
  have htake : (mkEntry kv :: (done.reverse.take N).map mkEntry).take N =
      (((done ++ [kv]).reverse).take N).map mkEntry := by
    have hrev : (done ++ [kv]).reverse = kv :: done.reverse := by simp
    rw [hrev]
    cases N with
    | zero => simp
    | succ n =>
      simp only [List.take_succ_cons, List.map_cons]
      rw [← List.map_take, List.take_take, Nat.min_eq_left (by omega : n ≤ n + 1)]
  simp only [stateOfSets, CacheState.mk.injEq, hNtoNat, htake, hfired, List.append_nil,
    List.nil_append, true_and, and_true, List.length_cons, List.length_append,
    List.length_nil, hElen]
  omega

theorem runSets_spec [DecidableEq K] [DecidableEq V] (N : Nat) :
    ∀ (pairs done : List (K × V)),
      ((done ++ pairs).map Prod.fst).Nodup →
      pairs.foldl (fun s kv => cache_set (⟨none⟩ : Config V) kv.1 kv.2 [] s)
        (stateOfSets N done) = stateOfSets N (done ++ pairs) := by
  intro pairs
  induction pairs with
  | nil =>
    intro done _
    simp
  | cons kv rest ih =>
    intro done h
    have hsplit : done ++ kv :: rest = (done ++ [kv]) ++ rest := by
      simp [List.append_assoc]
    have hfresh : kv.1 ∉ done.map Prod.fst := by
      rw [List.map_append, List.nodup_append] at h
      intro hmem
      exact h.2.2 hmem (by simp)
    rw [List.foldl_cons, cache_set_fresh N done kv hfresh]
    have h2 := ih (done ++ [kv]) (by rw [← hsplit]; exact h)
    rw [h2, ← hsplit]

theorem stateOfSets_nil [DecidableEq K] [DecidableEq V] (N : Nat) :
    (stateOfSets N [] : CacheState K V) = initCache K V (N : Int) false 1 := by
  simp [stateOfSets, initCache]

theorem findEntry_of_mem_nodup [DecidableEq K] {l : List (Entry K V)}
    (hnd : (l.map Entry.key).Nodup) {e : Entry K V} (he : e ∈ l) :
    findEntry l e.key = some e := by
  induction l with
  | nil => cases he
  | cons a as ih =>
    rw [List.map_cons, List.nodup_cons] at hnd
    rcases List.mem_cons.mp he with rfl | he2
    · rw [findEntry_cons]
      simp
    · have hne : a.key ≠ e.key := by
        intro hk
        exact hnd.1 (hk ▸ List.mem_map_of_mem Entry.key he2)
      rw [findEntry_cons, if_neg hne]
      exact ih hnd.2 he2

theorem removeKey_eq_filter [DecidableEq K] {l : List (Entry K V)}
    (hnd : (l.map Entry.key).Nodup) (k : K) :
    removeKey l k = l.filter fun x => !decide (x.key = k) := by
  induction l with
  | nil => rfl
  | cons a as ih =>
    rw [List.map_cons, List.nodup_cons] at hnd
    by_cases hk : a.key = k
    · have hall : ∀ x ∈ as, (!decide (x.key = k)) = true := by
        intro x hx
        have : x.key ≠ k := by
          intro hxk
          exact hnd.1 (by rw [hk, ← hxk]; exact List.mem_map_of_mem Entry.key hx)
        simp [this]
      simp [removeKey, hk, List.filter_cons, List.filter_eq_self.mpr hall]
    · simp [removeKey, hk, List.filter_cons, ih hnd.2]

theorem delete_node_fields (cfg : Config V) (node : Entry K V)
    (rem : List (Entry K V)) (s : CacheState K V) :
    ((delete_node cfg node rem s).2).entries = rem ∧
    ((delete_node cfg node rem s).2).fired = s.fired ++ node.callbacks ∧
    ((delete_node cfg node rem s).2).maxSize = s.maxSize ∧
    ((delete_node cfg node rem s).2).hits = s.hits ∧
    ((delete_node cfg node rem s).2).misses = s.misses := by
  cases hcb : cfg.sizeCallback <;> simp [delete_node, hcb]

theorem delLeaves_spec [DecidableEq K] (cfg : Config V) :
    ∀ (leaves : List (Entry K V)) (s : CacheState K V),
      (s.entries.map Entry.key).Nodup →
      (∀ leaf ∈ leaves, leaf ∈ s.entries) →
      (leaves.map Entry.key).Nodup →
      (leaves.foldl
          (fun st leaf => (delete_node cfg leaf (removeKey st.entries leaf.key) st).2)
          s).entries
        = s.entries.filter (fun e => !decide (e.key ∈ leaves.map Entry.key)) ∧
      (leaves.foldl
          (fun st leaf => (delete_node cfg leaf (removeKey st.entries leaf.key) st).2)
          s).fired
        = s.fired ++ (leaves.map Entry.callbacks).flatten := by
  intro leaves
  induction leaves with
  | nil =>
    intro s hnd _ _
    constructor
    · simp
    · simp
  | cons leaf rest ih =>
    intro s hnd hmem hlnd
    rw [List.map_cons, List.nodup_cons] at hlnd
    have hleaf : leaf ∈ s.entries := hmem leaf (by simp)
    have hrk : removeKey s.entries leaf.key =
        s.entries.filter fun x => !decide (x.key = leaf.key) :=
      removeKey_eq_filter hnd leaf.key
    obtain ⟨hf1, hf2, _, _, _⟩ :=
      delete_node_fields cfg leaf (removeKey s.entries leaf.key) s
    have hnd1 : (((delete_node cfg leaf (removeKey s.entries leaf.key) s).2).entries.map
        Entry.key).Nodup := by
      rw [hf1, hrk]
      exact ((List.filter_sublist s.entries).map Entry.key).nodup hnd
    have hmem1 : ∀ x ∈ rest,
        x ∈ ((delete_node cfg leaf (removeKey s.entries leaf.key) s).2).entries := by
      intro x hx
      rw [hf1, hrk]
      refine List.mem_filter.mpr ⟨hmem x (by simp [hx]), ?_⟩
      have : x.key ≠ leaf.key := by
        intro hk
        exact hlnd.1 (hk ▸ List.mem_map_of_mem Entry.key hx)
      simp [this]
    obtain ⟨ihe, ihf⟩ := ih _ hnd1 hmem1 hlnd.2
    rw [List.foldl_cons]
    constructor
    · rw [ihe, hf1, hrk, List.filter_filter]
      apply List.filter_congr
      intro x _
      by_cases h1 : x.key = leaf.key <;> by_cases h2 : x.key ∈ rest.map Entry.key <;>
        simp [h1, h2]
    · rw [ihf, hf2]
      simp [List.append_assoc]

theorem tree_del_multi_spec [DecidableEq A] (cfg : Config V) (pre : List A)
    (s : CacheState (List A) V) (hnd : (s.entries.map Entry.key).Nodup) :
    (tree_del_multi cfg pre s).entries =
      s.entries.filter (fun e => !(tupleStartsWith pre e.key)) ∧
    (tree_del_multi cfg pre s).fired =
      s.fired ++ ((s.entries.filter fun e => tupleStartsWith pre e.key).map
        Entry.callbacks).flatten := by
  by_cases hpop : (s.entries.filter fun e => tupleStartsWith pre e.key).isEmpty
  · have hnil : (s.entries.filter fun e => tupleStartsWith pre e.key) = [] :=
      List.isEmpty_iff.mp hpop
    have hall : ∀ e ∈ s.entries, ¬ tupleStartsWith pre e.key = true :=
      List.filter_eq_nil_iff.mp hnil
    have h1 : tree_del_multi cfg pre s = s := by
      simp only [tree_del_multi, hnil]
      rfl
    rw [h1, hnil]
    constructor
    · rw [List.filter_eq_self.mpr]
      intro e he
      simp [hall e he]
    · simp
  · have hsub : ∀ leaf ∈ (s.entries.filter fun e => tupleStartsWith pre e.key),
        leaf ∈ s.entries := fun leaf h => (List.mem_filter.mp h).1
    have hlnd : (((s.entries.filter fun e => tupleStartsWith pre e.key).map
        Entry.key)).Nodup :=
      ((List.filter_sublist s.entries).map Entry.key).nodup hnd
    obtain ⟨he, hf⟩ := delLeaves_spec cfg
      (s.entries.filter fun e => tupleStartsWith pre e.key) s hnd hsub hlnd
    have hstep : tree_del_multi cfg pre s =
        (s.entries.filter fun e => tupleStartsWith pre e.key).foldl
          (fun st leaf => (delete_node cfg leaf (removeKey st.entries leaf.key) st).2) s := by
      simp only [tree_del_multi, hpop]
      rfl
    rw [hstep, he, hf]
    refine ⟨List.filter_congr ?_, rfl⟩
    intro x hx
    by_cases hP : tupleStartsWith pre x.key
    · have : x.key ∈ ((s.entries.filter fun e => tupleStartsWith pre e.key).map
          Entry.key) :=
        List.mem_map_of_mem Entry.key (List.mem_filter.mpr ⟨hx, hP⟩)
      simp [this, hP]
    · have : x.key ∉ ((s.entries.filter fun e => tupleStartsWith pre e.key).map
          Entry.key) := by
        intro hmem
        obtain ⟨leaf, hleaf, hkey⟩ := List.mem_map.mp hmem
        have hleafP := (List.mem_filter.mp hleaf).2
        obtain rfl : leaf = x :=
          List.inj_on_of_nodup_map hnd (hsub leaf hleaf) hx hkey
        exact hP (by simpa using hleafP)
      simp [this, hP]

theorem evictFuel_maxSize (cfg : Config V) :
    ∀ (fuel : Nat) (s : CacheState K V), (evictFuel cfg fuel s).maxSize = s.maxSize := by
  intro fuel
  induction fuel with
  | zero => intro s; rfl
  | succ fuel ih =>
    intro s
    by_cases hguard : cacheLen cfg s > s.maxSize
    · rcases hg : s.entries.getLast? with _ | last
      · simp [evictFuel, hguard, hg]
      · cases hcb : cfg.sizeCallback with
        | none => simp [evictFuel, hguard, hg, delete_node, hcb, ih]
        | some f => simp [evictFuel, hguard, hg, delete_node, hcb, ih]
    · simp [evictFuel, hguard]

theorem cache_set_front [DecidableEq K] [DecidableEq V] (cfg : Config V)
    (hcfg : cfg.sizeCallback = none) (k : K) (v : V) (cbs : List Nat)
    (s : CacheState K V) (hms : 1 ≤ s.maxSize) :
    ∃ cbs2 rest, (cache_set cfg k v cbs s).entries = ⟨k, v, cbs2⟩ :: rest := by
  obtain ⟨m, hm⟩ : ∃ m, s.maxSize.toNat = m + 1 := ⟨s.maxSize.toNat - 1, by omega⟩
  rcases hfind : findEntry s.entries k with _ | e
  · have hstep : cache_set cfg k v cbs s =
        evict cfg { s with
          entries := ⟨k, v, addCallbacks [] (addCallbacks [] cbs)⟩ :: s.entries } := by
      simp [cache_set, hfind, add_node, hcfg]
    rw [hstep, evict_none cfg hcfg]
    refine ⟨addCallbacks [] (addCallbacks [] cbs), s.entries.take m, ?_⟩
    dsimp only
    rw [hm, List.take_succ_cons]
  · have hkey := findEntry_key hfind
    by_cases hv : v = e.value
    · have hstep : cache_set cfg k v cbs s =
          evict cfg { s with entries :=
            ({ e with value := v, callbacks := addCallbacks e.callbacks cbs } ::
              removeKey s.entries k) } := by
        simp [cache_set, hfind, hv, hcfg]
      rw [hstep, evict_none cfg hcfg]
      refine ⟨addCallbacks e.callbacks cbs, (removeKey s.entries k).take m, ?_⟩
      dsimp only
      rw [hm, List.take_succ_cons, hkey]
    · have hstep : cache_set cfg k v cbs s =
          evict cfg { s with
            fired := s.fired ++ e.callbacks,
            entries :=
              ({ e with value := v, callbacks := addCallbacks [] cbs } ::
                removeKey s.entries k) } := by
        simp [cache_set, hfind, hv, hcfg]
      rw [hstep, evict_none cfg hcfg]
      refine ⟨addCallbacks [] cbs, (removeKey s.entries k).take m, ?_⟩
      dsimp only
      rw [hm, List.take_succ_cons, hkey]

theorem initCache_ten :
    initCache Nat Nat 10 true 1 = ⟨[], 10, 10, true, 0, 0, 0, 0, []⟩ := by
  simp only [initCache]
  norm_num [pyInt]

theorem scenario10_eq :
    scenario10 =
      ⟨[⟨9, 9, []⟩, ⟨8, 8, []⟩, ⟨7, 7, []⟩, ⟨6, 6, []⟩, ⟨5, 5, []⟩, ⟨4, 4, []⟩,
        ⟨3, 3, []⟩, ⟨2, 2, []⟩, ⟨1, 1, []⟩, ⟨0, 0, []⟩], 10, 10, true, 0, 0, 0, 0, []⟩ := by
  unfold scenario10
  rw [initCache_ten]
  rfl

end Lemmas

section Claims

variable {K V A : Type}

/-- C1: for every sequence of `set(k, v)` calls with pairwise-distinct keys,
the default unit cost function and capacity `N`, after the sequence
completes `len()` is at most `N`, the keys still present are exactly the `N`
most recently touched keys in recency order (most recent first), and the
eviction counter equals the number of entries evicted. -/
theorem claim_C1_unique_key_sets (K V : Type) [DecidableEq K] [DecidableEq V]
    (N : Nat) (pairs : List (K × V)) (hnd : (pairs.map Prod.fst).Nodup) :
    cacheLen ⟨none⟩
        (pairs.foldl (fun s kv => cache_set (⟨none⟩ : Config V) kv.1 kv.2 [] s)
          (initCache K V (N : Int) false 1)) ≤ (N : Int) ∧
    (pairs.foldl (fun s kv => cache_set (⟨none⟩ : Config V) kv.1 kv.2 [] s)
        (initCache K V (N : Int) false 1)).entries.map Entry.key
      = (pairs.map Prod.fst).reverse.take N ∧
    (pairs.foldl (fun s kv => cache_set (⟨none⟩ : Config V) kv.1 kv.2 [] s)
        (initCache K V (N : Int) false 1)).evictions
      = ((pairs.length - N : Nat) : Int) := by
  have h := runSets_spec N pairs [] (by simpa using hnd)
  rw [stateOfSets_nil, List.nil_append] at h
  rw [h]
  refine ⟨?_, ?_, ?_⟩
  · simp only [cacheLen, stateOfSets, List.length_map, List.length_take,
      List.length_reverse]
    omega
  · simp [stateOfSets, List.map_map, mkEntry, List.map_take, List.map_reverse]
    rfl
  · rfl

/-- C1 witness: capacity 2, insert "a", "b", "c" in order — "a" is evicted,
the cache holds exactly ["c", "b"], and the eviction counter is 1. -/
theorem claim_C1_unique_key_sets_witness :
    ((([("a", 1), ("b", 2), ("c", 3)] : List (String × Nat)).map Prod.fst).Nodup) ∧
    (cacheLen ⟨none⟩
        (([("a", 1), ("b", 2), ("c", 3)] : List (String × Nat)).foldl
          (fun s kv => cache_set (⟨none⟩ : Config Nat) kv.1 kv.2 [] s)
          (initCache String Nat (2 : Int) false 1)) ≤ (2 : Int) ∧
      (([("a", 1), ("b", 2), ("c", 3)] : List (String × Nat)).foldl
          (fun s kv => cache_set (⟨none⟩ : Config Nat) kv.1 kv.2 [] s)
          (initCache String Nat (2 : Int) false 1)).entries.map Entry.key
        = ((([("a", 1), ("b", 2), ("c", 3)] : List (String × Nat)).map
            Prod.fst).reverse.take 2) ∧
      (([("a", 1), ("b", 2), ("c", 3)] : List (String × Nat)).foldl
          (fun s kv => cache_set (⟨none⟩ : Config Nat) kv.1 kv.2 [] s)
          (initCache String Nat (2 : Int) false 1)).evictions
        = ((([("a", 1), ("b", 2), ("c", 3)] : List (String × Nat)).length - 2 : Nat) : Int)) :=
  ⟨by decide, claim_C1_unique_key_sets String Nat 2 [("a", 1), ("b", 2), ("c", 3)] (by decide)⟩

/-- C2 counterexample: with `cost_fn = length`, capacity 2, a single
`set("k", "xyz")` whose one entry has cost 3 does NOT leave that entry
resident with `len()` above the capacity (as the claim's exception clause
states); the eviction loop evicts the just-inserted entry, the cache is
empty, and `len()` is 0. -/
theorem claim_C2_single_big_entry_counterexample :
    bigEntryState.entries = [] ∧
    cacheLen costCfg bigEntryState = 0 ∧
    ¬ bigEntryState.maxSize < cacheLen costCfg bigEntryState := by
  decide

/-- C2 amended: with a caller-supplied nonnegative cost function, from any
cost-consistent state with `len() ≤ max_size`, after any public operation
`len()` is again at most the (possibly new) effective capacity whenever that
capacity is nonnegative, and cost consistency is preserved.  There is no
single-over-cost-entry exception: an entry whose own cost exceeds the
capacity is itself evicted. -/
theorem claim_C2_cost_bound (K V : Type) [DecidableEq K] [DecidableEq V] (cfg : Config V)
    (op : Op K V) (s : CacheState K V) (hnn : costNonneg cfg)
    (hc : costConsistent cfg s) (hb : cacheLen cfg s ≤ s.maxSize) :
    costConsistent cfg (step cfg op s) ∧
    (0 ≤ (step cfg op s).maxSize →
      cacheLen cfg (step cfg op s) ≤ (step cfg op s).maxSize) :=
  step_cost_invariant cfg op s hnn hc hb

/-- C2 witness: the cost-function scenario `set("k", "xyz")` on an empty
capacity-2 cache with length costs satisfies the amended bound. -/
theorem claim_C2_cost_bound_witness :
    costNonneg costCfg ∧
    costConsistent costCfg (initCache String String 2 false 1) ∧
    cacheLen costCfg (initCache String String 2 false 1) ≤
      (initCache String String 2 false 1).maxSize ∧
    (costConsistent costCfg
        (step costCfg (Op.set "k" "xyz" []) (initCache String String 2 false 1)) ∧
      (0 ≤ (step costCfg (Op.set "k" "xyz" []) (initCache String String 2 false 1)).maxSize →
        cacheLen costCfg
            (step costCfg (Op.set "k" "xyz" []) (initCache String String 2 false 1)) ≤
          (step costCfg (Op.set "k" "xyz" []) (initCache String String 2 false 1)).maxSize)) := by
  have hnn : costNonneg costCfg := fun v => by simp [entrySize, costCfg]
  have hc : costConsistent costCfg (initCache String String 2 false 1) := fun f _ => by
    simp [initCache]
  have hb : cacheLen costCfg (initCache String String 2 false 1) ≤
      (initCache String String 2 false 1).maxSize := by decide
  exact ⟨hnn, hc, hb,
    claim_C2_cost_bound String String costCfg (Op.set "k" "xyz" []) _ hnn hc hb⟩

/-- C3 counterexample: in `pop`, when the entry's invalidation callback
raises, the exception propagates and the node has been unlinked from the
recency list, but — contrary to the claim — its removal from the key index
has NOT been applied: the key is still present in the backing dict. -/
theorem claim_C3_pop_raises_counterexample :
    (cache_pop_exc (⟨none⟩ : Config Nat) (fun _ => true) 1 excScenario).2 =
      Except.error () ∧
    (cache_pop_exc (⟨none⟩ : Config Nat) (fun _ => true) 1 excScenario).1.entries = [] ∧
    (cache_pop_exc (⟨none⟩ : Config Nat) (fun _ => true) 1 excScenario).1.indexKeys = [1] :=
  ⟨rfl, rfl, rfl⟩

/-- C3 amended: for every operation among get, set, pop, clear, del_multi
and eviction, a raising invalidation callback propagates to the caller and
nothing already applied is rolled back — but how much of the mutation
precedes the callback varies by operation, and the key-index removal
precedes the callbacks only in del_multi: get fires no invalidation
callbacks at all; set on a changed value fires the entry's previous
callbacks before any part of the mutation, so a raise there leaves the
state changed only by the completed-callback log; pop and eviction apply
the unlink and the cost adjustment before the callbacks but pop the key
from the index only after they complete, so on a raise the key remains in
the dict; del_multi pops the key from the index before any callback runs,
with the node unlinked and its cost subtracted before its own callbacks;
clear unlinks every entry from the recency list before the callbacks run
but empties the index and resets the cost cell only afterwards, so on a
raise both are untouched. -/
theorem claim_C3_callback_exception_order (K V : Type) [DecidableEq K]
    [DecidableEq V] (cfg : Config V) (raises : Nat → Bool) :
    (∀ (k : K) (cbs : List Nat) (um : Bool) (s : CacheState K V),
      (cache_get cfg k cbs um s).1.fired = s.fired) ∧
    (∀ (k : K) (v : V) (cbs : List Nat) (s : ExcState K V) (e : Entry K V),
      findEntry s.entries k = some e → v ≠ e.value →
      (runCallbacksExc raises e.callbacks).2 = true →
      cache_set_exc cfg raises k v cbs s =
        ({ s with fired := s.fired ++ (runCallbacksExc raises e.callbacks).1 }, true)) ∧
    (∀ (k : K) (s : ExcState K V) (e : Entry K V),
      findEntry s.entries k = some e →
      (runCallbacksExc raises e.callbacks).2 = true →
      (cache_pop_exc cfg raises k s).2 = Except.error () ∧
      (cache_pop_exc cfg raises k s).1.entries = removeKey s.entries k ∧
      (cache_pop_exc cfg raises k s).1.cachedLen =
        (match cfg.sizeCallback with
         | some f => s.cachedLen - f e.value
         | none => s.cachedLen) ∧
      (cache_pop_exc cfg raises k s).1.indexKeys = s.indexKeys ∧
      (cache_pop_exc cfg raises k s).1.fired =
        s.fired ++ (runCallbacksExc raises e.callbacks).1) ∧
    (∀ (s : ExcState K V) (last : Entry K V),
      s.entries.getLast? = some last →
      cacheLenExc cfg s > s.maxSize →
      (runCallbacksExc raises last.callbacks).2 = true →
      (evictExc cfg raises s).2 = true ∧
      (evictExc cfg raises s).1.entries = s.entries.dropLast ∧
      (evictExc cfg raises s).1.cachedLen =
        (match cfg.sizeCallback with
         | some f => s.cachedLen - f last.value
         | none => s.cachedLen) ∧
      (evictExc cfg raises s).1.indexKeys = s.indexKeys ∧
      (evictExc cfg raises s).1.fired =
        s.fired ++ (runCallbacksExc raises last.callbacks).1) ∧
    (∀ (k : K) (s : ExcState K V) (e : Entry K V),
      findEntry s.entries k = some e →
      (runCallbacksExc raises e.callbacks).2 = true →
      (cache_del_multi_exc cfg raises k s).2 = true ∧
      (cache_del_multi_exc cfg raises k s).1.indexKeys = removeFirst s.indexKeys k ∧
      (cache_del_multi_exc cfg raises k s).1.entries = removeKey s.entries k ∧
      (cache_del_multi_exc cfg raises k s).1.cachedLen =
        (match cfg.sizeCallback with
         | some f => s.cachedLen - f e.value
         | none => s.cachedLen) ∧
      (cache_del_multi_exc cfg raises k s).1.fired =
        s.fired ++ (runCallbacksExc raises e.callbacks).1) ∧
    (∀ s : ExcState K V,
      (runNodesExc raises s.entries).2 = true →
      (cache_clear_exc cfg raises s).2 = true ∧
      (cache_clear_exc cfg raises s).1.entries = [] ∧
      (cache_clear_exc cfg raises s).1.indexKeys = s.indexKeys ∧
      (cache_clear_exc cfg raises s).1.cachedLen = s.cachedLen ∧
      (cache_clear_exc cfg raises s).1.fired =
        s.fired ++ (runNodesExc raises s.entries).1) := by
  refine ⟨?_, ?_, ?_, ?_, ?_, ?_⟩
  · intro k cbs um s
    rcases hfind : findEntry s.entries k with _ | e <;> cases um <;>
      simp [cache_get, hfind]
  · intro k v cbs s e hfind hv hraise
    simp [cache_set_exc, hfind, hv, hraise]
  · intro k s e hfind hraise
    cases hcb : cfg.sizeCallback with
    | none => simp [cache_pop_exc, hfind, delete_node_exc, hraise, hcb]
    | some f => simp [cache_pop_exc, hfind, delete_node_exc, hraise, hcb]
  · intro s last hlast hguard hraise
    have hne : s.entries ≠ [] := by
      intro h
      rw [h] at hlast
      simp at hlast
    obtain ⟨a, as, hE⟩ : ∃ a as, s.entries = a :: as := by
      cases hE : s.entries with
      | nil => exact absurd hE hne
      | cons a as => exact ⟨a, as, rfl⟩
    have hlen : s.entries.length = as.length + 1 := by rw [hE]; rfl
    have hfix : evictExc cfg raises s =
        evictFuelExc cfg raises (as.length + 1) s := by
      rw [evictExc, hlen]
    cases hcb : cfg.sizeCallback with
    | none =>
      rw [hfix]
      simp [evictFuelExc, hguard, hlast, delete_node_exc, hraise, hcb]
    | some f =>
      rw [hfix]
      simp [evictFuelExc, hguard, hlast, delete_node_exc, hraise, hcb]
  · intro k s e hfind hraise
    cases hcb : cfg.sizeCallback with
    | none => simp [cache_del_multi_exc, hfind, delete_node_exc, hraise, hcb]
    | some f => simp [cache_del_multi_exc, hfind, delete_node_exc, hraise, hcb]
  · intro s hraise
    cases hcb : cfg.sizeCallback with
    | none => simp [cache_clear_exc, hraise, hcb]
    | some f => simp [cache_clear_exc, hraise, hcb]

/-- C3 witness: the amended pop clause at the concrete raising scenario —
the exception escapes with the node unlinked, the cost adjusted, and the
key still in the dict. -/
theorem claim_C3_callback_exception_order_witness :
    findEntry excScenario.entries 1 = some ⟨1, 7, [0]⟩ ∧
    (runCallbacksExc (fun _ => true) ([0] : List Nat)).2 = true ∧
    ((cache_pop_exc (⟨none⟩ : Config Nat) (fun _ => true) 1 excScenario).2 =
        Except.error () ∧
      (cache_pop_exc (⟨none⟩ : Config Nat) (fun _ => true) 1 excScenario).1.entries =
        removeKey excScenario.entries 1 ∧
      (cache_pop_exc (⟨none⟩ : Config Nat) (fun _ => true) 1 excScenario).1.cachedLen =
        excScenario.cachedLen ∧
      (cache_pop_exc (⟨none⟩ : Config Nat) (fun _ => true) 1 excScenario).1.indexKeys =
        excScenario.indexKeys ∧
      (cache_pop_exc (⟨none⟩ : Config Nat) (fun _ => true) 1 excScenario).1.fired =
        excScenario.fired ++ (runCallbacksExc (fun _ => true) ([0] : List Nat)).1) :=
  ⟨by decide, by decide,
    (claim_C3_callback_exception_order Nat Nat ⟨none⟩ (fun _ => true)).2.2.1 1
      excScenario ⟨1, 7, [0]⟩ (by decide) (by decide)⟩

/-- C4: `get(k, d)` on a present key moves the entry to the front of the
recency list, merges the passed callbacks into it, records a hit and returns
the stored value; on an absent key it records a miss, attaches no callbacks
anywhere (the state changes only in the miss counter) and returns the
default unchanged; and (for the unit cost function, capacity at least 1)
`get(k)` immediately after `set(k, v)` returns `v`. -/
theorem claim_C4_get_semantics (K V : Type) [DecidableEq K] [DecidableEq V]
    (cfg : Config V) (k : K) (d : V) (cbs : List Nat) (s : CacheState K V) :
    (∀ e, findEntry s.entries k = some e →
      cache_get cfg k cbs true s =
        ({ s with
            entries := ({ e with callbacks := addCallbacks e.callbacks cbs } ::
              removeKey s.entries k),
            hits := s.hits + 1 }, some e.value) ∧
      (cache_get_default cfg k d cbs true s).2 = e.value) ∧
    (findEntry s.entries k = none →
      cache_get cfg k cbs true s = ({ s with misses := s.misses + 1 }, none) ∧
      (cache_get_default cfg k d cbs true s).2 = d) ∧
    (cfg.sizeCallback = none → 1 ≤ s.maxSize → ∀ v : V,
      (cache_get cfg k [] true (cache_set cfg k v cbs s)).2 = some v) := by
  refine ⟨?_, ?_, ?_⟩
  · intro e hfind
    constructor
    · simp [cache_get, hfind]
    · simp [cache_get_default, cache_get, hfind]
  · intro hfind
    constructor
    · simp [cache_get, hfind]
    · simp [cache_get_default, cache_get, hfind]
  · intro hcfg hms v
    obtain ⟨cbs2, rest, hfront⟩ := cache_set_front cfg hcfg k v cbs s hms
    have hfind2 : findEntry (cache_set cfg k v cbs s).entries k =
        some ⟨k, v, cbs2⟩ := by
      rw [hfront, findEntry_cons]
      simp
    simp [cache_get, hfind2]

/-- C4 witness: on a one-entry cache, `get` hits, bumps the hit counter,
and returns the stored value; and a `get` right after a `set` sees the
written value. -/
theorem claim_C4_get_semantics_witness :
    findEntry oneEntryState.entries 1 = some ⟨1, 10, []⟩ ∧
    (cache_get (⟨none⟩ : Config Nat) 1 [] true oneEntryState =
        ({ oneEntryState with entries := [⟨1, 10, []⟩], hits := 1 }, some 10) ∧
      (cache_get_default (⟨none⟩ : Config Nat) 1 0 [] true oneEntryState).2 = 10) :=
  ⟨by decide,
    (claim_C4_get_semantics Nat Nat ⟨none⟩ 1 0 [] oneEntryState).1 ⟨1, 10, []⟩ (by decide)⟩

/-- C5: on a present key (unit cost, cache within capacity so the trailing
eviction loop is a no-op), `set(k, v)` fires and clears the entry's
previously registered callbacks exactly when the new value compares unequal
to the stored one (and fires nothing on an equal value); in both cases the
entry is updated in place, moved to the front, and the new callbacks are
merged in (into the cleared list when the old ones fired). -/
theorem claim_C5_set_fires_callbacks_on_change (K V : Type) [DecidableEq K]
    [DecidableEq V] (cfg : Config V) (k : K) (v : V) (cbs : List Nat)
    (s : CacheState K V) (e : Entry K V)
    (hfind : findEntry s.entries k = some e)
    (hcfg : cfg.sizeCallback = none)
    (hcap : (s.entries.length : Int) ≤ s.maxSize) :
    cache_set cfg k v cbs s =
      { s with
          entries :=
            ((⟨e.key, v, addCallbacks (if v ≠ e.value then [] else e.callbacks) cbs⟩ :
              Entry K V) :: removeKey s.entries k),
          fired := s.fired ++ (if v ≠ e.value then e.callbacks else []) } := by
  have hlen := length_removeKey hfind
  by_cases hv : v = e.value
  · have hpre : cache_set cfg k v cbs s =
        evict cfg { s with entries :=
          ({ e with value := v, callbacks := addCallbacks e.callbacks cbs } ::
            removeKey s.entries k) } := by
      simp [cache_set, hfind, hv, hcfg]
    rw [hpre, evict_none_noop cfg hcfg _ (by simp only [List.length_cons]; omega)]
    simp [hv]
  · have hpre : cache_set cfg k v cbs s =
        evict cfg { s with
          fired := s.fired ++ e.callbacks,
          entries :=
            ({ e with value := v, callbacks := addCallbacks [] cbs } ::
              removeKey s.entries k) } := by
      simp [cache_set, hfind, hv, hcfg]
    rw [hpre, evict_none_noop cfg hcfg _ (by simp only [List.length_cons]; omega)]
    simp [hv]

/-- C5 witness: overwriting value 10 with 20 under key 1 fires the entry's
callback 7 exactly once and clears it, while the merged callback list
restarts from the `set`'s own callbacks. -/
theorem claim_C5_set_fires_callbacks_on_change_witness :
    findEntry ([⟨1, 10, [7]⟩] : List (Entry Nat Nat)) 1 = some ⟨1, 10, [7]⟩ ∧
    (Config.sizeCallback (⟨none⟩ : Config Nat) = none) ∧
    ((([⟨1, 10, [7]⟩] : List (Entry Nat Nat)).length : Int) ≤
      { oneEntryState with entries := [⟨1, 10, [7]⟩] }.maxSize) ∧
    cache_set (⟨none⟩ : Config Nat) 1 20 [9]
        { oneEntryState with entries := [⟨1, 10, [7]⟩] } =
      { oneEntryState with
          entries := [⟨1, 20, [9]⟩],
          fired := [7] } :=
  ⟨by decide, rfl, by decide,
    claim_C5_set_fires_callbacks_on_change Nat Nat ⟨none⟩ 1 20 [9]
      { oneEntryState with entries := [⟨1, 10, [7]⟩] } ⟨1, 10, [7]⟩
      (by decide) rfl (by decide)⟩

/-- C6: `setdefault(k, v)` on a present key returns the stored value and
leaves the whole state unchanged (in particular the recency position is not
refreshed); on an absent key it inserts a new entry with no callbacks at the
front, runs the eviction loop (here for the unit cost: keeping the first
`max_size` entries), and returns `v`. -/
theorem claim_C6_setdefault (K V : Type) [DecidableEq K] (cfg : Config V)
    (k : K) (v : V) (s : CacheState K V) :
    (∀ e, findEntry s.entries k = some e →
      cache_set_default cfg k v s = (s, e.value)) ∧
    (findEntry s.entries k = none → cfg.sizeCallback = none →
      (cache_set_default cfg k v s).2 = v ∧
      (cache_set_default cfg k v s).1.entries =
        ((⟨k, v, []⟩ : Entry K V) :: s.entries).take s.maxSize.toNat) := by
  constructor
  · intro e hfind
    simp [cache_set_default, hfind]
  · intro hfind hcfg
    have h1 : cache_set_default cfg k v s = (evict cfg (add_node cfg k v [] s), v) := by
      simp [cache_set_default, hfind]
    have h2 : add_node cfg k v [] s =
        { s with entries := ⟨k, v, []⟩ :: s.entries } := by
      simp [add_node, hcfg, addCallbacks]
    rw [h1, h2, evict_none cfg hcfg]
    exact ⟨rfl, rfl⟩

/-- C6 witness: on the one-entry cache, `setdefault(1, 99)` returns the
stored 10 and changes nothing; on a fresh key 2 it inserts at the front. -/
theorem claim_C6_setdefault_witness :
    findEntry oneEntryState.entries 1 = some ⟨1, 10, []⟩ ∧
    cache_set_default (⟨none⟩ : Config Nat) 1 99 oneEntryState = (oneEntryState, 10) ∧
    findEntry oneEntryState.entries 2 = none ∧
    ((cache_set_default (⟨none⟩ : Config Nat) 2 99 oneEntryState).2 = 99 ∧
      (cache_set_default (⟨none⟩ : Config Nat) 2 99 oneEntryState).1.entries =
        ((⟨2, 99, []⟩ : Entry Nat Nat) :: oneEntryState.entries).take
          oneEntryState.maxSize.toNat) :=
  ⟨by decide,
    (claim_C6_setdefault Nat Nat ⟨none⟩ 1 99 oneEntryState).1 ⟨1, 10, []⟩ (by decide),
    by decide,
    (claim_C6_setdefault Nat Nat ⟨none⟩ 2 99 oneEntryState).2 (by decide) rfl⟩

/-- C7: `set_cache_factor(f)` returns false and changes nothing on an
instance that opted out of global scaling, or when the recomputed capacity
equals the current one; otherwise it stores the new truncated capacity, runs
the eviction loop (for unit cost: keeps the first `new_size` entries,
counting the rest as evictions) and returns true.  Concretely, nominal size
10, initial factor 1, ten entries: `set_cache_factor(1/2)` keeps exactly the
five most recently used keys, evicts 5, returns true; a second identical
call returns false. -/
theorem claim_C7_set_cache_factor (K V : Type) (cfg : Config V) (factor : Rat)
    (s : CacheState K V) :
    (s.applyFactor = false → set_cache_factor cfg factor s = (s, false)) ∧
    (s.applyFactor = true → pyInt (s.origMaxSize * factor) = s.maxSize →
      set_cache_factor cfg factor s = (s, false)) ∧
    (s.applyFactor = true → pyInt (s.origMaxSize * factor) ≠ s.maxSize →
      cfg.sizeCallback = none →
      (set_cache_factor cfg factor s).2 = true ∧
      (set_cache_factor cfg factor s).1.maxSize = pyInt (s.origMaxSize * factor) ∧
      (set_cache_factor cfg factor s).1.entries =
        s.entries.take (pyInt (s.origMaxSize * factor)).toNat ∧
      (set_cache_factor cfg factor s).1.evictions =
        s.evictions +
          ((s.entries.length - (pyInt (s.origMaxSize * factor)).toNat : Nat) : Int)) ∧
    ((set_cache_factor (⟨none⟩ : Config Nat) (1 / 2) scenario10).2 = true ∧
      (set_cache_factor (⟨none⟩ : Config Nat) (1 / 2) scenario10).1.entries.map Entry.key =
        [9, 8, 7, 6, 5] ∧
      (set_cache_factor (⟨none⟩ : Config Nat) (1 / 2) scenario10).1.evictions =
        scenario10.evictions + 5 ∧
      (set_cache_factor (⟨none⟩ : Config Nat) (1 / 2)
          ((set_cache_factor (⟨none⟩ : Config Nat) (1 / 2) scenario10).1)).2 = false) := by
  refine ⟨?_, ?_, ?_, ?_⟩
  · intro haf
    simp [set_cache_factor, haf]
  · intro haf heq
    simp [set_cache_factor, haf, heq]
  · intro haf hne hcfg
    have hstep : set_cache_factor cfg factor s =
        (evict cfg { s with maxSize := pyInt (s.origMaxSize * factor) }, true) := by
      simp [set_cache_factor, haf, hne]
    rw [hstep, evict_none cfg hcfg]
    exact ⟨rfl, rfl, rfl, rfl⟩
  · have hfac2 : pyInt ((10 : Rat) * 2⁻¹) = 5 := by norm_num [pyInt]
    have h1 : set_cache_factor (⟨none⟩ : Config Nat) (1 / 2) scenario10 =
        (evict ⟨none⟩ ⟨[⟨9, 9, []⟩, ⟨8, 8, []⟩, ⟨7, 7, []⟩, ⟨6, 6, []⟩, ⟨5, 5, []⟩,
          ⟨4, 4, []⟩, ⟨3, 3, []⟩, ⟨2, 2, []⟩, ⟨1, 1, []⟩, ⟨0, 0, []⟩], 5, 10, true,
          0, 0, 0, 0, []⟩, true) := by
      rw [scenario10_eq]
      simp [set_cache_factor, hfac2]
    have h2 : evict (⟨none⟩ : Config Nat)
        ⟨[⟨9, 9, []⟩, ⟨8, 8, []⟩, ⟨7, 7, []⟩, ⟨6, 6, []⟩, ⟨5, 5, []⟩, ⟨4, 4, []⟩,
          ⟨3, 3, []⟩, ⟨2, 2, []⟩, ⟨1, 1, []⟩, ⟨0, 0, []⟩], 5, 10, true, 0, 0, 0, 0, []⟩ =
        ⟨[⟨9, 9, []⟩, ⟨8, 8, []⟩, ⟨7, 7, []⟩, ⟨6, 6, []⟩, ⟨5, 5, []⟩], 5, 10, true,
          0, 0, 5, 0, []⟩ := rfl
    refine ⟨by rw [h1], ?_, ?_, ?_⟩
    · rw [h1]
      rfl
    · rw [h1, scenario10_eq]
      rfl
    · rw [h1, h2]
      simp [set_cache_factor, hfac2]

/-- C7 witness: an instance that opted out of global scaling ignores the
factor and reports no change. -/
theorem claim_C7_set_cache_factor_witness :
    oneEntryState.applyFactor = false ∧
    set_cache_factor (⟨none⟩ : Config Nat) 2 oneEntryState = (oneEntryState, false) :=
  ⟨rfl, (claim_C7_set_cache_factor Nat Nat ⟨none⟩ 2 oneEntryState).1 rfl⟩

/-- C8: `del_multi` (alias `invalidate`) on a missing key is a no-op; on a
flat cache it is exactly `pop` with the value discarded; on a hierarchical
cache a (possibly proper) prefix removes every entry under it, firing each
removed entry's callbacks, so a subsequent `get` of any removed full key
misses; and the concrete two-level scenario removes both entries under
("a",), fires both callback sets, and the follow-up `get(("a","1"))` returns
the default. -/
theorem claim_C8_del_multi :
    (∀ (K V : Type) [DecidableEq K] (cfg : Config V) (k : K) (s : CacheState K V),
      findEntry s.entries k = none → cache_del_multi cfg k s = s) ∧
    (∀ (K V : Type) [DecidableEq K] (cfg : Config V) (k : K) (s : CacheState K V),
      cache_del_multi cfg k s = (cache_pop cfg k s).1) ∧
    (∀ (A V : Type) [DecidableEq A] (cfg : Config V) (pre : List A)
      (s : CacheState (List A) V), (s.entries.map Entry.key).Nodup →
      (tree_del_multi cfg pre s).entries =
        s.entries.filter (fun e => !(tupleStartsWith pre e.key)) ∧
      (tree_del_multi cfg pre s).fired =
        s.fired ++ ((s.entries.filter fun e => tupleStartsWith pre e.key).map
          Entry.callbacks).flatten ∧
      (∀ k2 : List A, tupleStartsWith pre k2 →
        findEntry (tree_del_multi cfg pre s).entries k2 = none)) ∧
    ((tree_del_multi (⟨none⟩ : Config Nat) ["a"] treeScenario).entries = [] ∧
      (tree_del_multi (⟨none⟩ : Config Nat) ["a"] treeScenario).fired = [2, 1] ∧
      (cache_get (⟨none⟩ : Config Nat) ["a", "1"] [] true
        (tree_del_multi (⟨none⟩ : Config Nat) ["a"] treeScenario)).2 = none) := by
  refine ⟨?_, ?_, ?_, ?_⟩
  · intro K V _ cfg k s hfind
    simp [cache_del_multi, hfind]
  · intro K V _ cfg k s
    exact del_multi_eq_pop cfg k s
  · intro A V _ cfg pre s hnd
    obtain ⟨he, hf⟩ := tree_del_multi_spec cfg pre s hnd
    refine ⟨he, hf, ?_⟩
    intro k2 hk2
    rw [he, findEntry_eq_none]
    intro e hein hkey
    have hpred := (List.mem_filter.mp hein).2
    rw [hkey, hk2] at hpred
    simp at hpred
  · refine ⟨by decide, by decide, by decide⟩

/-- C8 witness: on a flat one-entry cache, removing an absent key changes
nothing. -/
theorem claim_C8_del_multi_witness :
    findEntry oneEntryState.entries 2 = none ∧
    cache_del_multi (⟨none⟩ : Config Nat) 2 oneEntryState = oneEntryState :=
  ⟨by decide, claim_C8_del_multi.1 Nat Nat ⟨none⟩ 2 oneEntryState (by decide)⟩

/-- C9: behavior of the bodies of `__getitem__` and `__delitem__` — on an
absent key both signal `KeyError` (the deletion body leaving the state
unchanged); on a present key item access is a `get` (refreshing recency and
counting a hit) returning the stored value, and item deletion removes the
entry exactly like `pop`.  (The Python method `__delitem__` declares a
spurious extra positional parameter, so the `del` statement itself fails
with `TypeError` before this body is ever reached.) -/
theorem claim_C9_item_access (K V : Type) [DecidableEq K] (cfg : Config V) (k : K)
    (s : CacheState K V) :
    (findEntry s.entries k = none →
      (lru_getitem cfg k s).2 = Except.error () ∧
      lru_delitem cfg k s = (s, Except.error ())) ∧
    (∀ e, findEntry s.entries k = some e →
      (lru_getitem cfg k s).2 = Except.ok e.value ∧
      (lru_getitem cfg k s).1 = (cache_get cfg k [] true s).1 ∧
      lru_delitem cfg k s = ((cache_pop cfg k s).1, Except.ok ())) := by
  constructor
  · intro hfind
    constructor
    · simp [lru_getitem, cache_get, hfind]
    · simp [lru_delitem, cache_pop, hfind]
  · intro e hfind
    refine ⟨?_, ?_, ?_⟩ <;> simp [lru_getitem, lru_delitem, cache_get, cache_pop, hfind]

/-- C9 witness: the bodies at a concrete absent key raise `KeyError`. -/
theorem claim_C9_item_access_witness :
    findEntry oneEntryState.entries 2 = none ∧
    ((lru_getitem (⟨none⟩ : Config Nat) 2 oneEntryState).2 = Except.error () ∧
      lru_delitem (⟨none⟩ : Config Nat) 2 oneEntryState =
        (oneEntryState, Except.error ())) :=
  ⟨by decide, (claim_C9_item_access Nat Nat ⟨none⟩ 2 oneEntryState).1 (by decide)⟩

/-- C10: the effective capacity is always the integer truncation toward zero
of nominal × factor — at construction (when scaling is applied; without
scaling it is the nominal integer itself) and on every capacity-changing
`set_cache_factor` call; `pyInt` is floor on nonnegative arguments and
ceiling on negative ones (truncation toward zero), and the fractional
product 10 × 0.55 yields capacity 5, not the exact product. -/
theorem claim_C10_capacity_truncation :
    (∀ (K V : Type) (n : Int) (f : Rat),
      (initCache K V n true f).maxSize = pyInt (n * f)) ∧
    (∀ (K V : Type) (n : Int) (f : Rat),
      (initCache K V n false f).maxSize = n) ∧
    (∀ (K V : Type) (cfg : Config V) (f : Rat) (s : CacheState K V),
      s.applyFactor = true → pyInt (s.origMaxSize * f) ≠ s.maxSize →
      (set_cache_factor cfg f s).1.maxSize = pyInt (s.origMaxSize * f)) ∧
    (∀ q : Rat, 0 ≤ q → ((pyInt q : Rat) ≤ q ∧ q < pyInt q + 1)) ∧
    (∀ q : Rat, q < 0 → (q ≤ (pyInt q : Rat) ∧ ((pyInt q : Rat)) - 1 < q)) ∧
    (pyInt ((10 : Rat) * (55 / 100)) = 5 ∧
      ((10 : Rat) * (55 / 100)) ≠ ((5 : Int) : Rat)) := by
  refine ⟨?_, ?_, ?_, ?_, ?_, ?_, ?_⟩
  · intro K V n f
    simp [initCache]
  · intro K V n f
    simp [initCache]
  · intro K V cfg f s haf hne
    have hstep : set_cache_factor cfg f s =
        (evict cfg { s with maxSize := pyInt (s.origMaxSize * f) }, true) := by
      simp [set_cache_factor, haf, hne]
    rw [hstep]
    have h := evictFuel_maxSize cfg
      ({ s with maxSize := pyInt (s.origMaxSize * f) }).entries.length
      { s with maxSize := pyInt (s.origMaxSize * f) }
    exact h
  · intro q hq
    rw [pyInt, if_pos hq]
    exact ⟨Int.floor_le q, Int.lt_floor_add_one q⟩
  · intro q hq
    rw [pyInt, if_neg (by linarith)]
    refine ⟨Int.le_ceil q, ?_⟩
    have h := Int.ceil_lt_add_one q
    linarith
  · norm_num [pyInt]
  · norm_num

/-- C10 witness: the floor characterization at the nonnegative rational
one-half. -/
theorem claim_C10_capacity_truncation_witness :
    (0 ≤ (1 / 2 : Rat)) ∧
    ((pyInt (1 / 2) : Rat) ≤ (1 / 2 : Rat) ∧ (1 / 2 : Rat) < pyInt (1 / 2) + 1) :=
  ⟨by norm_num, claim_C10_capacity_truncation.2.2.2.1 (1 / 2) (by norm_num)⟩

end Claims

end LruSpec
